import Mathlib

/-!
# ReorderFuncLiterals: descriptor parser and dependency graphs

A shallow embedding of `src/ReorderFuncLiterals.cpp` (souffle): the pattern
scan and the reading loop of `readFuncRelInfo`, the variable collector, and
the two graph builders `printFuncRelDeps` and `printAtomDeps`, followed by the
properties established about them.

Conventions of the embedding.
* A `std::string` is the list of its characters (`List Char`); its ordering is
  the lexicographic one, as for `std::string::operator<`.
* A `std::set<T>` is the list of its elements in ascending order without
  repetition; `setInsert` is `std::set::insert`.
* A `std::map` or `std::multimap` is the list of its entries in iteration
  order (ascending keys; equal keys of a multimap in insertion order).
* A boost graph is the list of its vertex properties (a vertex descriptor is
  the index of the vertex in that list) together with the list of its edges in
  insertion order.
-/

namespace ReorderFuncLiterals

/-! ## Standard containers -/

/-- The text of a `std::string`. -/
abbrev CppString := List Char

/-- Insertion into a `std::set`: the element is placed at its position in the
ascending order and is not inserted when an equal element is present. -/
def setInsert {α : Type} [LinearOrder α] (x : α) : List α → List α
  | [] => [x]
  | y :: ys =>
    if x < y then x :: y :: ys
    else if y < x then y :: setInsert x ys
    else y :: ys

/-- The loop of `std::set_intersection` over two sorted ranges, writing to a
back inserter.  The first argument bounds the number of iterations; each
iteration advances at least one of the two ranges. -/
def setIntersectionLoop {α : Type} [LinearOrder α] : Nat → List α → List α → List α
  | 0, _, _ => []
  | _ + 1, [], _ => []
  | _ + 1, _ :: _, [] => []
  | n + 1, x :: xs, y :: ys =>
    if x < y then setIntersectionLoop n xs (y :: ys)
    else if y < x then setIntersectionLoop n (x :: xs) ys
    else x :: setIntersectionLoop n xs ys

/-- The call `std::set_intersection(a.begin(), a.end(), b.begin(), b.end(),
std::back_inserter(out))`. -/
def set_intersection {α : Type} [LinearOrder α] (xs ys : List α) : List α :=
  setIntersectionLoop (xs.length + ys.length) xs ys

/-- Insertion `std::multimap::emplace`: the new entry goes after every entry
whose key is not greater than its key (the upper bound of its equal range). -/
def multimapEmplace {κ β : Type} [LinearOrder κ] (k : κ) (v : β) :
    List (κ × β) → List (κ × β)
  | [] => [(k, v)]
  | e :: es => if k < e.1 then (k, v) :: e :: es else e :: multimapEmplace k v es

/-- The values of `std::multimap::equal_range`: the entries stored under the
key, in iteration order. -/
def equal_range {κ β : Type} [DecidableEq κ] (m : List (κ × β)) (k : κ) : List β :=
  (m.filter (fun e => decide (e.1 = k))).map Prod.snd

/-- Insertion `std::map::emplace`: nothing is inserted when the key is present. -/
def mapEmplace {κ β : Type} [LinearOrder κ] (k : κ) (v : β) :
    List (κ × β) → List (κ × β)
  | [] => [(k, v)]
  | e :: es =>
    if k < e.1 then (k, v) :: e :: es
    else if e.1 < k then e :: mapEmplace k v es
    else e :: es

/-! ## The pattern scan of readFuncRelInfo -/

/-- Modelled from the spec: the type `FunctionalRelationDesc` is declared in
`FuncChecksCommon.h`, which is not part of the sources at hand.  The source
uses it as a pair: `first` is the set of source positions (it is inserted into
and iterated), `second` is the target position (it is assigned and used as an
argument index). -/
structure FunctionalRelationDesc where
  first : List Nat
  second : Nat
deriving DecidableEq, Repr

/-- The value of a default-constructed `FunctionalRelationDesc desc;`. -/
def FunctionalRelationDesc.default : FunctionalRelationDesc := ⟨[], 0⟩

/-- The number of values of an `unsigned`, at which the increment of the
counter `i` wraps around to 0. -/
def unsignedModulus : Nat := 2 ^ 32

/-- One iteration of `for (auto c : ss2.str())`, on the descriptor and the
counter `i`.  The counter is an `unsigned`: `i++` is the successor modulo
`unsignedModulus`. -/
def scanStep (st : FunctionalRelationDesc × Nat) (c : Char) :
    FunctionalRelationDesc × Nat :=
  let desc := st.1
  let i := st.2
  let desc :=
    if c = 'S' then { desc with first := setInsert i desc.first }
    else if c = 'T' then { desc with second := i }
    else desc
  let i := if c = 'X' ∨ c = 'T' ∨ c = 'S' then (i + 1) % unsignedModulus else i
  (desc, i)

/-- The pattern scan of `readFuncRelInfo` (source lines 280 to 290). -/
def scanPattern (s : CppString) : FunctionalRelationDesc :=
  (s.foldl scanStep (FunctionalRelationDesc.default, 0)).1

/-- Membership of a character in the alphabet S, T, X of position characters. -/
def isPositionChar (c : Char) : Bool := c = 'S' || c = 'T' || c = 'X'

/-- The number of characters of the string that are one of S, T, X. -/
def positionCount (s : CppString) : Nat := (s.filter isPositionChar).length

/-! ## The reading loop of readFuncRelInfo -/

/-- The state of the `std::ifstream csvFile` that the loop observes: the
characters from the get position to the end of the file, and the state bits
`failbit` and `eofbit`. -/
structure IfStream where
  rest : List Char
  failbit : Bool
  eofbit : Bool
deriving DecidableEq, Repr

/-- The constructor `std::ifstream(csvFileName)`.  The argument is the content
of the file, or `none` for a file that cannot be opened; a failed open sets
`failbit` and leaves `eofbit` clear. -/
def IfStream.ofFile : Option (List Char) → IfStream
  | some content => ⟨content, false, false⟩
  | none => ⟨[], true, false⟩

/-- The call `csvFile.get(sb, delim)`, returning the characters stored into
the stream buffer `sb`.  When the stream is not good the sentry sets `failbit`
and nothing is extracted.  Otherwise characters are extracted up to, and not
including, the next `delim`; reaching the end of the file sets `eofbit`, and
extracting no character sets `failbit`. -/
def IfStream.get (s : IfStream) (delim : Char) : List Char × IfStream :=
  if s.failbit || s.eofbit then ([], { s with failbit := true })
  else
    let taken := s.rest.takeWhile (fun c => c != delim)
    let rest := s.rest.dropWhile (fun c => c != delim)
    (taken, { rest := rest, failbit := taken.isEmpty, eofbit := rest.isEmpty })

/-- The call `csvFile.seekg(1, std::ios_base::cur)`: `eofbit` is cleared, and
unless the stream has failed the get position moves one character forward. -/
def IfStream.seekg1 (s : IfStream) : IfStream :=
  if s.failbit then { s with eofbit := false }
  else { s with rest := s.rest.drop 1, eofbit := false }

/-- The loop `while (!csvFile.eof())` of `readFuncRelInfo` (source lines 267
to 296).  The first argument bounds the number of iterations: `none` means
that the loop is still running after that many. -/
def readLoop : Nat → IfStream → List (CppString × FunctionalRelationDesc) →
    Option (List (CppString × FunctionalRelationDesc))
  | 0, _, _ => none
  | fuel + 1, csvFile, relMap =>
    if csvFile.eofbit then some relMap
    else
      let r1 := csvFile.get '\t'
      let relName := r1.1
      if relName = [] then readLoop fuel r1.2 relMap
      else
        let r2 := r1.2.get '\n'
        let desc := scanPattern r2.1
        readLoop fuel r2.2.seekg1 (multimapEmplace relName desc relMap)

/-- The function `readFuncRelInfo` on the content of the file named by its
argument (`none` for a file that cannot be opened); `none` as a result means
that the function has not returned within `fuel` iterations of its loop. -/
def readFuncRelInfo (fuel : Nat) (file : Option (List Char)) :
    Option (List (CppString × FunctionalRelationDesc)) :=
  readLoop fuel (IfStream.ofFile file) []

/-- The text of a descriptor file made of the given lines, each written as
the relation name, a tab, the pattern string and a newline. -/
def descriptorFile : List (CppString × CppString) → List Char
  | [] => []
  | l :: ls => l.1 ++ '\t' :: (l.2 ++ '\n' :: descriptorFile ls)

/-! ## Syntax trees -/

/-- Modelled from the spec: the argument classes are declared in
`AstArgument.h`, which is not part of the sources at hand.  An argument is a
variable with its name, or any other argument, given by the arguments among
its child nodes. -/
inductive AstArgument where
  | var (name : CppString)
  | compound (children : List AstArgument)

/-- Modelled from the spec: the class `AstAtom` is declared in a header that
is not part of the sources at hand.  An atom has a relation name
(`getName().getName()`) and an ordered list of arguments. -/
structure AstAtom where
  name : CppString
  arguments : List AstArgument

/-- Modelled from the spec: `AstAtom::getArgument` is declared in a header
that is not part of the sources at hand; it resolves the argument at a
position.  The source passes descriptor positions to it unchecked; `none`
stands for an index that is not below the arity, for which the call has no
defined result. -/
def AstAtom.getArgument (atom : AstAtom) (idx : Nat) : Option AstArgument :=
  atom.arguments[idx]?

/-- Modelled from the spec: the literal classes are declared in
`AstLiteral.h`, which is not part of the sources at hand.  A literal is an
atom or a binary constraint with a left- and a right-hand argument. -/
inductive AstLiteral where
  | atom (a : AstAtom)
  | binaryConstraint (lhs rhs : AstArgument)

/-- Modelled from the spec: the class `AstClause` is declared in
`AstClause.h`, which is not part of the sources at hand.  A clause is a head
atom and an ordered body of literals; each body literal is paired with the
address of its node, which is what an `AstLiteral*` compares by. -/
structure AstClause where
  head : AstAtom
  body : List (Nat × AstLiteral)

/-- Modelled from the spec: `AstClause::getAtoms` is declared in
`AstClause.h`, which is not part of the sources at hand.  It yields the atoms
of the body, in order: `printFuncRelDeps` calls `getName()` and
`getArgument(i)` on every element without a cast, so every element is an
atom. -/
def AstClause.getAtoms (cls : AstClause) : List (Nat × AstAtom) :=
  cls.body.filterMap (fun l =>
    match l.2 with
    | AstLiteral.atom a => some (l.1, a)
    | AstLiteral.binaryConstraint _ _ => none)

mutual
/-- The function `collectVariableNames` (source lines 53 to 62). -/
def collectVariableNames : AstArgument → List CppString → List CppString
  | AstArgument.var name, vars => setInsert name vars
  | AstArgument.compound children, vars => collectChildNodes children vars
/-- The loop over `arg->getChildNodes()` inside `collectVariableNames`. -/
def collectChildNodes : List AstArgument → List CppString → List CppString
  | [], vars => vars
  | child :: rest, vars => collectChildNodes rest (collectVariableNames child vars)
end

/-! ## Graphs -/

/-- A boost graph with vertex property `V` and an edge name per edge: the
vertex properties in order of creation (a vertex descriptor is an index into
this list) and the edges `(source, target, name)` in order of insertion.
Parallel edges are kept. -/
structure BoostGraph (V : Type) where
  vertices : List V
  edges : List (Nat × Nat × CppString)
deriving DecidableEq, Repr

/-- The directed graph over variable names, type `Graph` of the source. -/
abbrev Graph := BoostGraph CppString

/-- The undirected graph over literal addresses, type `Graph2` of the source. -/
abbrev Graph2 := BoostGraph Nat

/-- A default-constructed graph. -/
def BoostGraph.empty {V : Type} : BoostGraph V := ⟨[], []⟩

/-- The result of `g.num_vertices()`. -/
def BoostGraph.num_vertices {V : Type} (g : BoostGraph V) : Nat := g.vertices.length

/-- The call `boost::add_vertex(p, g)`; the new descriptor is the former
number of vertices. -/
def BoostGraph.add_vertex {V : Type} (p : V) (g : BoostGraph V) : BoostGraph V :=
  { g with vertices := g.vertices ++ [p] }

/-- The call `boost::add_edge(u, v, name, g)`. -/
def BoostGraph.add_edge {V : Type} (u v : Nat) (name : CppString) (g : BoostGraph V) :
    BoostGraph V :=
  { g with edges := g.edges ++ [(u, v, name)] }

/-- The lookup `std::map::find`: the value stored under the key, if any. -/
def mapFind {κ β : Type} [DecidableEq κ] (k : κ) : List (κ × β) → Option β
  | [] => none
  | e :: es => if e.1 = k then some e.2 else mapFind k es

/-- The graph under construction together with the map from keys to vertex
descriptors (`nameToVertex`, `literalToVertex`). -/
abbrev Builder (V : Type) := BoostGraph V × List (V × Nat)

/-- The lambda `getVertex` of both builders (source lines 70 to 77 and 177 to
184): the vertex of a key, created and recorded on first use. -/
def getVertex {V : Type} [LinearOrder V] (key : V) (st : Builder V) : Nat × Builder V :=
  match mapFind key st.2 with
  | some v => (v, st)
  | none =>
    let v := st.1.vertices.length
    (v, (st.1.add_vertex key, mapEmplace key v st.2))

/-! ## The builder printFuncRelDeps -/

/-- The loop `for (auto srcIdx : it->second.first)` (source lines 198 to 206). -/
def sourceLoop (atom : AstAtom) (dstV : Nat) :
    List Nat → Builder CppString → Option (Builder CppString)
  | [], st => some st
  | srcIdx :: rest, st =>
    match atom.getArgument srcIdx with
    | none => none
    | some (AstArgument.var name) =>
      let r := getVertex name st
      sourceLoop atom dstV rest (r.2.1.add_edge r.1 dstV atom.name, r.2.2)
    | some (AstArgument.compound _) => sourceLoop atom dstV rest st

/-- The loop over the equal range of an atom (source lines 191 to 207). -/
def descLoop (atom : AstAtom) :
    List FunctionalRelationDesc → Builder CppString → Option (Builder CppString)
  | [], st => some st
  | desc :: rest, st =>
    match atom.getArgument desc.second with
    | none => none
    | some (AstArgument.var name) =>
      let r := getVertex name st
      match sourceLoop atom r.1 desc.first r.2 with
      | none => none
      | some st1 => descLoop atom rest st1
    | some (AstArgument.compound _) => descLoop atom rest st

/-- The loop `for (auto *atom : cls.getAtoms())` (source lines 186 to 208). -/
def atomLoop (funcRels : List (CppString × FunctionalRelationDesc)) :
    List AstAtom → Builder CppString → Option (Builder CppString)
  | [], st => some st
  | atom :: rest, st =>
    let range := equal_range funcRels atom.name
    if range.isEmpty then atomLoop funcRels rest st
    else
      match descLoop atom range st with
      | none => none
      | some st1 => atomLoop funcRels rest st1

/-- The graph `g` built by `FuncLiteralOpt::printFuncRelDeps` for a clause,
`funcRels` being the descriptor mapping held by the object.  The result is
`none` when an argument index is not below the arity of its atom. -/
def printFuncRelDeps (funcRels : List (CppString × FunctionalRelationDesc))
    (cls : AstClause) : Option Graph :=
  (atomLoop funcRels (cls.getAtoms.map Prod.snd) (BoostGraph.empty, [])).map Prod.fst

/-! ## The builder printAtomDeps -/

/-- The variable set `args` computed for one literal (source lines 80 to 89).
The loop over `atom->getArguments()` calls `collectVariableNames` on every
argument in turn, as `collectChildNodes` does on a list of arguments. -/
def literalVariables : AstLiteral → List CppString
  | AstLiteral.atom atom => collectChildNodes atom.arguments []
  | AstLiteral.binaryConstraint lhs rhs =>
    collectVariableNames rhs (collectVariableNames lhs [])

/-- The map `argMap` after the first loop (source lines 79 to 91); an element
of `cls.getAtoms()` is stored under its address, as a literal. -/
def buildArgMap (cls : AstClause) : List (Nat × List CppString) :=
  cls.getAtoms.foldl
    (fun argMap l => mapEmplace l.1 (literalVariables (AstLiteral.atom l.2)) argMap) []

/-- The body of the inner loop for one pair of entries of `argMap` (source
lines 95 to 112). -/
def pairStep (p1 p2 : Nat × List CppString) (st : Builder Nat) : Builder Nat :=
  if p1.1 = p2.1 then st
  else
    let commonArgs := set_intersection p1.2 p2.2
    if commonArgs.isEmpty then st
    else
      let r1 := getVertex p1.1 st
      let r2 := getVertex p2.1 r1.2
      (commonArgs.foldl (fun g argName => g.add_edge r1.1 r2.1 argName) r2.2.1, r2.2.2)

/-- The nested loops over `argMap` (source lines 93 to 114): every entry with
every later entry. -/
def pairLoop : List (Nat × List CppString) → Builder Nat → Builder Nat
  | [], st => st
  | p1 :: rest, st => pairLoop rest (rest.foldl (fun s p2 => pairStep p1 p2 s) st)

/-- The graph `g` built by `FuncLiteralOpt::printAtomDeps` for a clause. -/
def printAtomDeps (cls : AstClause) : Graph2 :=
  (pairLoop (buildArgMap cls) (BoostGraph.empty, [])).1


/-! ## Vocabulary of the statements -/

/-- The edges of a graph as `(source, target, name)` with both end points
read through the vertex properties: `some p` for the vertex whose property is
`p`, `none` for a descriptor that denotes no vertex. -/
def namedEdges {V : Type} (g : BoostGraph V) : List (Option V × Option V × CppString) :=
  g.edges.map (fun e => (g.vertices[e.1]?, g.vertices[e.2.1]?, e.2.2))

/-- An edge `source → target` with its name, between vertex properties, in
the form in which `namedEdges` lists it. -/
def namedEdge {V : Type} (e : V × V × CppString) : Option V × Option V × CppString :=
  (some e.1, some e.2.1, e.2.2)

/-- Consistency of a builder state: the map sends a key to a descriptor
exactly when that descriptor denotes the vertex of the key, and every edge
joins existing vertices. -/
def BuilderInv {V : Type} [LinearOrder V] (st : Builder V) : Prop :=
  (∀ k i, mapFind k st.2 = some i ↔ st.1.vertices[i]? = some k) ∧
  (∀ e ∈ st.1.edges, e.1 < st.1.vertices.length ∧ e.2.1 < st.1.vertices.length)

/-- The relation between a builder state and a later one: the later state is
consistent, its vertices continue those of the earlier one with the keys
that satisfy `P`, and its edges continue those of the earlier one with `L`. -/
def BuilderExtends {V : Type} [LinearOrder V] (st st1 : Builder V)
    (L : List (V × V × CppString)) (P : V → Prop) : Prop :=
  BuilderInv st1 ∧
  (∃ ext, st1.1.vertices = st.1.vertices ++ ext) ∧
  namedEdges st1.1 = namedEdges st.1 ++ L.map namedEdge ∧
  (∀ x, x ∈ st1.1.vertices ↔ x ∈ st.1.vertices ∨ P x)

/-- The name of the variable at a position of an atom, when the argument at
that position exists and is a variable. -/
def AstAtom.variableAt (atom : AstAtom) (idx : Nat) : Option CppString :=
  match atom.getArgument idx with
  | some (AstArgument.var name) => some name
  | _ => none

/-- The edges `v → t` named after the relation that one descriptor yields on
one atom: `t` is the variable at the target position, and there is one edge
for every source position that holds a variable `v`. -/
def descEdges (atom : AstAtom) (desc : FunctionalRelationDesc) :
    List (CppString × CppString × CppString) :=
  match atom.variableAt desc.second with
  | some t => desc.first.filterMap (fun s => (atom.variableAt s).map (fun v => (v, t, atom.name)))
  | none => []

/-- The edges of the dependency graph of a clause, as a comprehension: for
every atom occurrence, every descriptor registered under its name. -/
def dependencyEdges (funcRels : List (CppString × FunctionalRelationDesc))
    (cls : AstClause) : List (CppString × CppString × CppString) :=
  cls.getAtoms.flatMap (fun a => (equal_range funcRels a.2.name).flatMap (descEdges a.2))

/-- Every position of every descriptor registered for an atom of the clause
is below the arity of that atom. -/
def PositionsInRange (funcRels : List (CppString × FunctionalRelationDesc))
    (cls : AstClause) : Prop :=
  ∀ a ∈ cls.getAtoms, ∀ d ∈ equal_range funcRels a.2.name,
    d.second < a.2.arguments.length ∧ ∀ s ∈ d.first, s < a.2.arguments.length

/-- A name is the variable at the target position or at a source position of
the descriptor on the atom, the target position holding a variable. -/
def DescVertex (atom : AstAtom) (desc : FunctionalRelationDesc) (x : CppString) : Prop :=
  ∃ t, atom.variableAt desc.second = some t ∧
    (x = t ∨ ∃ s ∈ desc.first, atom.variableAt s = some x)

/-- The descriptor occurrences of a clause in the order in which
`printFuncRelDeps` visits them: every atom with every descriptor of its
equal range. -/
def occurrences (funcRels : List (CppString × FunctionalRelationDesc))
    (cls : AstClause) : List (AstAtom × FunctionalRelationDesc) :=
  cls.getAtoms.flatMap (fun a => (equal_range funcRels a.2.name).map (fun d => (a.2, d)))

/-- The builder run over a list of descriptor occurrences: the body of the
loop over the equal range (`descLoop` on the single descriptor) for each
occurrence in turn. -/
def occurrenceLoop : List (AstAtom × FunctionalRelationDesc) → Builder CppString →
    Option (Builder CppString)
  | [], st => some st
  | o :: rest, st =>
    match descLoop o.1 [o.2] st with
    | none => none
    | some st1 => occurrenceLoop rest st1

/-- The graph built from a list of descriptor occurrences. -/
def graphOfOccurrences (occs : List (AstAtom × FunctionalRelationDesc)) : Option Graph :=
  (occurrenceLoop occs (BoostGraph.empty, [])).map Prod.fst

/-- A clause body of atoms, for examples: the atoms are given addresses in
steps of eight from 4096, and the head is the atom `h()`. -/
def clauseOf (atoms : List AstAtom) : AstClause :=
  { head := ⟨['h'], []⟩
    body := atoms.enum.map (fun p => (4096 + 8 * p.1, AstLiteral.atom p.2)) }

/-- The variable with the given name, as an argument. -/
def mkVar (name : String) : AstArgument := AstArgument.var name.toList

/-- A constant, as an argument: an argument other than a variable, without
argument children. -/
def mkConst : AstArgument := AstArgument.compound []

/-- The atom with the given relation name and arguments. -/
def mkAtom (name : String) (arguments : List AstArgument) : AstAtom := ⟨name.toList, arguments⟩

/-- The edges that `printAtomDeps` adds for one pair of entries of `argMap`:
none for a literal paired with itself, otherwise one per common variable
name, from the first literal to the second. -/
def pairEdges (p1 p2 : Nat × List CppString) : List (Nat × Nat × CppString) :=
  if p1.1 = p2.1 then []
  else (set_intersection p1.2 p2.2).map (fun argName => (p1.1, p2.1, argName))

/-- The edges of the sharing graph over the entries of `argMap`, as a
comprehension: every entry with every later entry. -/
def sharingEdges : List (Nat × List CppString) → List (Nat × Nat × CppString)
  | [] => []
  | p1 :: rest => rest.flatMap (pairEdges p1) ++ sharingEdges rest

/-- The names of the edges of a list that join the vertices `a` and `b`, in
either direction. -/
def joinLabels {V : Type} [DecidableEq V] (a b : V) (es : List (V × V × CppString)) :
    List CppString :=
  es.filterMap (fun e =>
    if (e.1 = a ∧ e.2.1 = b) ∨ (e.1 = b ∧ e.2.1 = a) then some e.2.2 else none)

/-- The names of the edges of a graph that join the vertices with properties
`a` and `b`; the graph being undirected, in either direction. -/
def edgesJoining {V : Type} [DecidableEq V] (g : BoostGraph V) (a b : V) : List CppString :=
  (namedEdges g).filterMap (fun e =>
    if (e.1 = some a ∧ e.2.1 = some b) ∨ (e.1 = some b ∧ e.2.1 = some a) then some e.2.2
    else none)

/-- A vertex property is an end point of one of the edges of the list. -/
def EdgeEndpoint {V : Type} (es : List (V × V × CppString)) (x : V) : Prop :=
  ∃ e ∈ es, x = e.1 ∨ x = e.2.1

/-- A well-formed descriptor line: the relation name is not empty and holds
neither a tab nor a newline, and the pattern string holds no newline. -/
def WellFormedLine (l : CppString × CppString) : Prop :=
  l.1 ≠ [] ∧ '\t' ∉ l.1 ∧ '\n' ∉ l.1 ∧ '\n' ∉ l.2

/-! ## The emission decisions -/

/-- The result of `std::multimap::count`: the number of entries under the key. -/
def multimapCount {κ β : Type} [DecidableEq κ] (m : List (κ × β)) (k : κ) : Nat :=
  (equal_range m k).length

/-- The literal that an `AstLiteral*` of the clause body points to. -/
def AstClause.literalAt (cls : AstClause) (addr : Nat) : Option AstLiteral :=
  (cls.body.find? (fun l => decide (l.1 = addr))).map Prod.snd

/-- The map `literalToVertex` at the end of the loops of `printAtomDeps`. -/
def literalToVertex (cls : AstClause) : List (Nat × Nat) :=
  (pairLoop (buildArgMap cls) (BoostGraph.empty, [])).2

/-- The flag `hasFuncRel` of `printAtomDeps` (source lines 118 to 124): some
key of `literalToVertex` is an atom whose relation name has an entry in
`funcRels`. -/
def hasFuncRel (funcRels : List (CppString × FunctionalRelationDesc)) (cls : AstClause) :
    Bool :=
  (literalToVertex cls).any (fun t =>
    match cls.literalAt t.1 with
    | some (AstLiteral.atom a) => decide (multimapCount funcRels a.name ≠ 0)
    | _ => false)

/-- Modelled from the spec: the macro `DEBUG` is defined in a header that is
not part of the sources at hand; its argument is executed in the diagnostics
mode only, which the flag `debug` stands for.  This is the decision of
`printAtomDeps` to write its graph out (source lines 160 to 168). -/
def printAtomDepsWrites (debug : Bool) (funcRels : List (CppString × FunctionalRelationDesc))
    (cls : AstClause) : Bool :=
  debug && (decide ((printAtomDeps cls).num_vertices > 2) && hasFuncRel funcRels cls)

/-- The condition under which `printFuncRelDeps` writes a graph out (source
line 239). -/
def funcRelDepsCondition (g : Graph) : Bool := decide (g.num_vertices > 2)

/-- The decision of `printFuncRelDeps` to write its graph out (source lines
211 to 246), the macro `DEBUG` being modelled by the flag `debug` as in
`printAtomDepsWrites`; `none` when no graph is built. -/
def printFuncRelDepsWrites (debug : Bool)
    (funcRels : List (CppString × FunctionalRelationDesc)) (cls : AstClause) : Option Bool :=
  (printFuncRelDeps funcRels cls).map (fun g => debug && funcRelDepsCondition g)

/-! ## Labels -/

/-- The scan of `boost::algorithm::replace_all_copy`: every occurrence of the
search string found from left to right is replaced by the format string, the
scan going on after the occurrence.  The number is the count of characters
of the current occurrence that are still to be skipped. -/
def replaceAllLoop (search format : List Char) : Nat → List Char → List Char
  | _, [] => []
  | skip + 1, _ :: cs => replaceAllLoop search format skip cs
  | 0, c :: cs =>
    if search ≠ [] ∧ search.isPrefixOf (c :: cs) = true then
      format ++ replaceAllLoop search format (search.length - 1) cs
    else c :: replaceAllLoop search format 0 cs

/-- The call `boost::algorithm::replace_all_copy(input, search, format)`. -/
def replace_all_copy (input search format : List Char) : List Char :=
  replaceAllLoop search format 0 input

/-- The function `sanitize` of the label writers (source lines 133 to 135, 144
to 146, 217 to 219 and 229 to 231). -/
def sanitize (s : CppString) : CppString := replace_all_copy s ['?'] ['_']

/-! ## Further vocabulary -/

mutual
/-- The names of the variable leaves of an argument tree: a variable
contributes its own name, any other argument the names contributed by its
argument children. -/
def variableLeaves : AstArgument → List CppString
  | AstArgument.var name => [name]
  | AstArgument.compound children => childVariableLeaves children
/-- The names of the variable leaves of a list of argument trees. -/
def childVariableLeaves : List AstArgument → List CppString
  | [] => []
  | child :: rest => variableLeaves child ++ childVariableLeaves rest
end

/-- A clause body of literals, for examples: the literals are given addresses
in steps of eight from 4096, and the head is the atom `h()`. -/
def clauseOfLiterals (literals : List AstLiteral) : AstClause :=
  { head := ⟨['h'], []⟩
    body := literals.enum.map (fun p => (4096 + 8 * p.1, p.2)) }

/-- The positions that `printFuncRelDeps` indexes are below the arities: the
target position of every descriptor registered for an atom of the clause,
and its source positions when the target position holds a variable. -/
def IndexedPositionsInRange (funcRels : List (CppString × FunctionalRelationDesc))
    (cls : AstClause) : Prop :=
  ∀ a ∈ cls.getAtoms, ∀ d ∈ equal_range funcRels a.2.name,
    d.second < a.2.arguments.length ∧
      (∀ t, a.2.variableAt d.second = some t → ∀ s ∈ d.first, s < a.2.arguments.length)

/-! ## The builder printFuncRelDeps on any descriptor positions -/

theorem mem_setInsert {α : Type} [LinearOrder α] (x y : α) (l : List α) :
    y ∈ setInsert x l ↔ y = x ∨ y ∈ l := by
  induction l with
  | nil => simp [setInsert]
  | cons z zs ih =>
    unfold setInsert
    by_cases h1 : x < z
    · simp [h1]
    · by_cases h2 : z < x
      · simp only [h1, h2, if_true, if_false, List.mem_cons, ih]
        tauto
      · have hxz : x = z := le_antisymm (not_lt.mp h2) (not_lt.mp h1)
        subst hxz
        simp only [h1, if_false, List.mem_cons]
        tauto

theorem setInsert_sorted {α : Type} [LinearOrder α] (x : α) (l : List α)
    (h : l.Sorted (· < ·)) : (setInsert x l).Sorted (· < ·) := by
  induction l with
  | nil => simp [setInsert]
  | cons z zs ih =>
    unfold setInsert
    by_cases h1 : x < z
    · simp only [h1, if_true]
      refine List.sorted_cons.mpr ⟨?_, h⟩
      intro b hb
      rcases List.mem_cons.mp hb with rfl | hb
      · exact h1
      · exact lt_trans h1 (List.rel_of_sorted_cons h b hb)
    · by_cases h2 : z < x
      · simp only [h1, h2, if_true, if_false]
        refine List.sorted_cons.mpr ⟨?_, ih (List.Sorted.of_cons h)⟩
        intro b hb
        rcases (mem_setInsert x b zs).mp hb with rfl | hb
        · exact h2
        · exact List.rel_of_sorted_cons h b hb
      · simp only [h1, h2, if_false]
        exact h

/-! ## The pattern scan -/

theorem positionCount_nil : positionCount [] = 0 := rfl

theorem positionCount_cons (c : Char) (s : CppString) :
    positionCount (c :: s) = (if isPositionChar c then 1 else 0) + positionCount s := by
  unfold positionCount
  by_cases h : isPositionChar c = true
  · simp [List.filter_cons, h]; omega
  · simp [List.filter_cons, h]

theorem scanStep_of_not_position (st : FunctionalRelationDesc × Nat) (c : Char)
    (h : isPositionChar c = false) : scanStep st c = st := by
  have h1 : c ≠ 'S' := by intro e; subst e; simp [isPositionChar] at h
  have h2 : c ≠ 'T' := by intro e; subst e; simp [isPositionChar] at h
  have h3 : c ≠ 'X' := by intro e; subst e; simp [isPositionChar] at h
  simp [scanStep, h1, h2, h3]

theorem scanStep_S (d : FunctionalRelationDesc) (i : Nat) :
    scanStep (d, i) 'S' =
      ({ d with first := setInsert i d.first }, (i + 1) % unsignedModulus) := by
  simp [scanStep]

theorem scanStep_T (d : FunctionalRelationDesc) (i : Nat) :
    scanStep (d, i) 'T' = ({ d with second := i }, (i + 1) % unsignedModulus) := by
  simp [scanStep]

theorem scanStep_X (d : FunctionalRelationDesc) (i : Nat) :
    scanStep (d, i) 'X' = (d, (i + 1) % unsignedModulus) := by
  simp [scanStep]

theorem unsignedModulus_pos : 0 < unsignedModulus := by decide

theorem succ_mod_lt (i : Nat) : (i + 1) % unsignedModulus < unsignedModulus :=
  Nat.mod_lt _ unsignedModulus_pos

theorem char_cases (c : Char) :
    c = 'S' ∨ c = 'T' ∨ c = 'X' ∨ isPositionChar c = false := by
  by_cases h1 : c = 'S'
  · exact Or.inl h1
  by_cases h2 : c = 'T'
  · exact Or.inr (Or.inl h2)
  by_cases h3 : c = 'X'
  · exact Or.inr (Or.inr (Or.inl h3))
  · right; right; right; simp [isPositionChar, h1, h2, h3]

/-- A decomposition of `c :: s` around an occurrence of `a`. -/
theorem cons_split_iff (a c : Char) (s : CppString) (P : CppString → Prop) :
    (∃ pre post, c :: s = pre ++ a :: post ∧ P pre) ↔
      (c = a ∧ P []) ∨ ∃ pre post, s = pre ++ a :: post ∧ P (c :: pre) := by
  constructor
  · rintro ⟨pre, post, h, hp⟩
    cases pre with
    | nil =>
      simp at h
      exact Or.inl ⟨h.1, hp⟩
    | cons x pre =>
      simp at h
      obtain ⟨rfl, rfl⟩ := h
      exact Or.inr ⟨pre, post, rfl, hp⟩
  · rintro (⟨rfl, hp⟩ | ⟨pre, post, rfl, hp⟩)
    · exact ⟨[], s, rfl, hp⟩
    · exact ⟨c :: pre, post, rfl, hp⟩

theorem split_shift (a c : Char) (s : CppString) (i k : Nat) (hc : isPositionChar c = true) :
    (∃ pre post, s = pre ++ a :: post ∧
        k = (i + positionCount (c :: pre)) % unsignedModulus) ↔
      ∃ pre post, s = pre ++ a :: post ∧
        k = ((i + 1) % unsignedModulus + positionCount pre) % unsignedModulus := by
  have e : ∀ pre : CppString, (i + positionCount (c :: pre)) % unsignedModulus =
      ((i + 1) % unsignedModulus + positionCount pre) % unsignedModulus := by
    intro pre
    rw [positionCount_cons, hc, if_pos rfl, Nat.mod_add_mod, Nat.add_assoc]
  constructor <;> rintro ⟨pre, post, h, hk⟩
  · exact ⟨pre, post, h, by rw [hk, e]⟩
  · exact ⟨pre, post, h, by rw [hk, e]⟩

theorem split_keep (a c : Char) (s : CppString) (i k : Nat) (hc : isPositionChar c = false) :
    (∃ pre post, s = pre ++ a :: post ∧
        k = (i + positionCount (c :: pre)) % unsignedModulus) ↔
      ∃ pre post, s = pre ++ a :: post ∧ k = (i + positionCount pre) % unsignedModulus := by
  have e : ∀ pre : CppString, positionCount (c :: pre) = positionCount pre := by
    intro pre
    rw [positionCount_cons, hc]
    simp
  constructor <;> rintro ⟨pre, post, h, hk⟩
  · exact ⟨pre, post, h, by rw [hk, e]⟩
  · exact ⟨pre, post, h, by rw [hk, e]⟩

theorem scan_fold_first (s : CppString) (d : FunctionalRelationDesc) (i : Nat)
    (hi : i < unsignedModulus) (hs : d.first.Sorted (· < ·)) :
    (∀ k, k ∈ (s.foldl scanStep (d, i)).1.first ↔
      k ∈ d.first ∨ ∃ pre post, s = pre ++ 'S' :: post ∧
        k = (i + positionCount pre) % unsignedModulus) ∧
    (s.foldl scanStep (d, i)).1.first.Sorted (· < ·) := by
  induction s generalizing d i with
  | nil => simp [hs]
  | cons c s ih =>
    rw [List.foldl_cons]
    have h0 : (i + positionCount []) % unsignedModulus = i := by
      rw [positionCount_nil, Nat.add_zero, Nat.mod_eq_of_lt hi]
    rcases char_cases c with rfl | rfl | rfl | h
    · rw [scanStep_S]
      obtain ⟨h1, h2⟩ := ih { d with first := setInsert i d.first }
        ((i + 1) % unsignedModulus) (succ_mod_lt i) (setInsert_sorted i d.first hs)
      refine ⟨fun k => ?_, h2⟩
      rw [h1 k, cons_split_iff 'S' 'S' s (fun pre => k = (i + positionCount pre) % unsignedModulus),
        split_shift 'S' 'S' s i k (by decide), h0]
      simp only [mem_setInsert, true_and]
      tauto
    · rw [scanStep_T]
      obtain ⟨h1, h2⟩ := ih { d with second := i } ((i + 1) % unsignedModulus)
        (succ_mod_lt i) hs
      refine ⟨fun k => ?_, h2⟩
      rw [h1 k, cons_split_iff 'S' 'T' s (fun pre => k = (i + positionCount pre) % unsignedModulus),
        split_shift 'S' 'T' s i k (by decide)]
      have : ¬ ('T' = 'S') := by decide
      simp only [this, false_and, false_or]
    · rw [scanStep_X]
      obtain ⟨h1, h2⟩ := ih d ((i + 1) % unsignedModulus) (succ_mod_lt i) hs
      refine ⟨fun k => ?_, h2⟩
      rw [h1 k, cons_split_iff 'S' 'X' s (fun pre => k = (i + positionCount pre) % unsignedModulus),
        split_shift 'S' 'X' s i k (by decide)]
      have : ¬ ('X' = 'S') := by decide
      simp only [this, false_and, false_or]
    · rw [scanStep_of_not_position _ _ h]
      obtain ⟨h1, h2⟩ := ih d i hi hs
      refine ⟨fun k => ?_, h2⟩
      have hc : ¬ (c = 'S') := by intro e; subst e; simp [isPositionChar] at h
      rw [h1 k, cons_split_iff 'S' c s (fun pre => k = (i + positionCount pre) % unsignedModulus),
        split_keep 'S' c s i k h]
      simp only [hc, false_and, false_or]

theorem scan_fold_second (s : CppString) (d : FunctionalRelationDesc) (i : Nat)
    (hi : i < unsignedModulus) :
    (∀ pre post, s = pre ++ 'T' :: post → 'T' ∉ post →
      (s.foldl scanStep (d, i)).1.second = (i + positionCount pre) % unsignedModulus) ∧
    ('T' ∉ s → (s.foldl scanStep (d, i)).1.second = d.second) := by
  induction s generalizing d i with
  | nil =>
    refine ⟨fun pre post h => ?_, fun _ => rfl⟩
    simp at h
  | cons c s ih =>
    rw [List.foldl_cons]
    have hshift : ∀ (x : Char) (pre : CppString), isPositionChar x = true →
        ((i + 1) % unsignedModulus + positionCount pre) % unsignedModulus =
          (i + positionCount (x :: pre)) % unsignedModulus := by
      intro x pre hx
      rw [positionCount_cons, hx, if_pos rfl, Nat.mod_add_mod, Nat.add_assoc]
    constructor
    · intro pre post hsplit hpost
      cases pre with
      | nil =>
        simp at hsplit
        obtain ⟨rfl, rfl⟩ := hsplit
        rw [scanStep_T, (ih _ _ (succ_mod_lt i)).2 hpost, positionCount_nil, Nat.add_zero,
          Nat.mod_eq_of_lt hi]
      | cons x pre =>
        simp at hsplit
        obtain ⟨rfl, rfl⟩ := hsplit
        rcases char_cases c with rfl | rfl | rfl | h
        · rw [scanStep_S, (ih _ _ (succ_mod_lt i)).1 pre post rfl hpost,
            hshift 'S' pre (by decide)]
        · rw [scanStep_T, (ih _ _ (succ_mod_lt i)).1 pre post rfl hpost,
            hshift 'T' pre (by decide)]
        · rw [scanStep_X, (ih _ _ (succ_mod_lt i)).1 pre post rfl hpost,
            hshift 'X' pre (by decide)]
        · rw [scanStep_of_not_position _ _ h, (ih _ _ hi).1 pre post rfl hpost,
            positionCount_cons, h]
          simp
    · intro hT
      have hc : c ≠ 'T' := fun e => hT (by simp [e])
      have hs : 'T' ∉ s := fun e => hT (List.mem_cons_of_mem _ e)
      rcases char_cases c with rfl | rfl | rfl | h
      · rw [scanStep_S, (ih _ _ (succ_mod_lt i)).2 hs]
      · exact absurd rfl hc
      · rw [scanStep_X, (ih _ _ (succ_mod_lt i)).2 hs]
      · rw [scanStep_of_not_position _ _ h, (ih _ _ hi).2 hs]

theorem scan_fold_filter (s : CppString) (st : FunctionalRelationDesc × Nat) :
    (s.filter isPositionChar).foldl scanStep st = s.foldl scanStep st := by
  induction s generalizing st with
  | nil => rfl
  | cons c s ih =>
    by_cases h : isPositionChar c = true
    · rw [List.filter_cons_of_pos h, List.foldl_cons, List.foldl_cons, ih]
    · have h2 : isPositionChar c = false := by simpa using h
      rw [List.filter_cons_of_neg h, List.foldl_cons, scanStep_of_not_position _ _ h2, ih]

theorem positionCount_append (s t : CppString) :
    positionCount (s ++ t) = positionCount s + positionCount t := by
  simp [positionCount, List.filter_append]

/-- The number of position characters before a position character of a string
is below the number of position characters of the string. -/
theorem positionCount_prefix_lt (a : Char) (ha : isPositionChar a = true)
    (s pre post : CppString) (h : s = pre ++ a :: post) :
    positionCount pre < positionCount s := by
  rw [h, positionCount_append, positionCount_cons, ha, if_pos rfl]
  omega

theorem positionCount_replicate_X (n : Nat) : positionCount (List.replicate n 'X') = n := by
  induction n with
  | zero => rfl
  | succ n ih =>
    rw [List.replicate_succ, positionCount_cons, ih]
    have : isPositionChar 'X' = true := by decide
    rw [this, if_pos rfl]
    omega

/-- The scan over a run of `X`: the descriptor stays, the counter advances
modulo `unsignedModulus`. -/
theorem scan_fold_replicate_X (n : Nat) (d : FunctionalRelationDesc) :
    ∀ i, (List.replicate n 'X').foldl scanStep (d, i) = (d, (i + n) % unsignedModulus) ∨
      (n = 0 ∧ (List.replicate n 'X').foldl scanStep (d, i) = (d, i)) := by
  induction n with
  | zero => intro i; exact Or.inr ⟨rfl, rfl⟩
  | succ n ih =>
    intro i
    left
    rw [List.replicate_succ, List.foldl_cons, scanStep_X]
    rcases ih ((i + 1) % unsignedModulus) with h | ⟨h0, h⟩
    · rw [h, Nat.mod_add_mod, Nat.add_assoc, Nat.add_comm 1 n]
    · rw [h, h0]

theorem scan_fold_replicate_X_pos (n : Nat) (hn : 0 < n) (d : FunctionalRelationDesc)
    (i : Nat) :
    (List.replicate n 'X').foldl scanStep (d, i) = (d, (i + n) % unsignedModulus) := by
  rcases scan_fold_replicate_X n d i with h | ⟨h0, _⟩
  · exact h
  · omega

/-- The descriptor of a pattern, with the positions as the counter has them:
counts of position characters modulo `unsignedModulus`. -/
theorem scanPattern_mod (s : CppString) :
    (∀ k, k ∈ (scanPattern s).first ↔
      ∃ pre post, s = pre ++ 'S' :: post ∧ positionCount pre % unsignedModulus = k) ∧
    (scanPattern s).first.Sorted (· < ·) ∧
    (∀ pre post, s = pre ++ 'T' :: post → 'T' ∉ post →
      (scanPattern s).second = positionCount pre % unsignedModulus) := by
  have h1 := scan_fold_first s FunctionalRelationDesc.default 0 unsignedModulus_pos
    (by simp [FunctionalRelationDesc.default])
  have h2 := scan_fold_second s FunctionalRelationDesc.default 0 unsignedModulus_pos
  refine ⟨fun k => ?_, h1.2, fun pre post hs hp => ?_⟩
  · unfold scanPattern
    rw [h1.1 k]
    simp only [FunctionalRelationDesc.default, List.not_mem_nil, false_or, Nat.zero_add]
    constructor <;> rintro ⟨pre, post, h, hk⟩ <;> exact ⟨pre, post, h, hk.symm⟩
  · unfold scanPattern
    rw [h2.1 pre post hs hp, Nat.zero_add]

theorem scanPattern_no_S (s : CppString) (h : 'S' ∉ s) : (scanPattern s).first = [] := by
  apply List.eq_nil_iff_forall_not_mem.mpr
  intro k hk
  obtain ⟨pre, post, hs, _⟩ := ((scanPattern_mod s).1 k).mp hk
  exact h (by rw [hs]; simp)

theorem scanPattern_no_T (s : CppString) (h : 'T' ∉ s) : (scanPattern s).second = 0 :=
  (scan_fold_second s FunctionalRelationDesc.default 0 unsignedModulus_pos).2 h

/-- The descriptor of a run of `X` followed by one `S`. -/
theorem scanPattern_replicate_X_S (n : Nat) (hn : 0 < n) :
    scanPattern (List.replicate n 'X' ++ ['S']) = ⟨[n % unsignedModulus], 0⟩ := by
  rw [scanPattern, List.foldl_append, scan_fold_replicate_X_pos n hn, Nat.zero_add,
    List.foldl_cons, List.foldl_nil, scanStep_S]
  rfl

/-- The descriptor of one `S`, a run of `X` and one `T`. -/
theorem scanPattern_S_replicate_X_T (n : Nat) (hn : 0 < n) :
    scanPattern ('S' :: (List.replicate n 'X' ++ ['T'])) =
      ⟨[0], (1 % unsignedModulus + n) % unsignedModulus⟩ := by
  rw [scanPattern, List.foldl_cons, FunctionalRelationDesc.default, scanStep_S, Nat.zero_add,
    List.foldl_append, scan_fold_replicate_X_pos n hn, List.foldl_cons, List.foldl_nil,
    scanStep_T]
  rfl

/-- C1, refuted as stated: for the pattern made of 2^32 characters `X`
followed by one `S`, the `S` is preceded by 2^32 position characters, but the
counter has wrapped around and the descriptor built has the source position 0
and not the source position 2^32. -/
theorem scanPattern_wrap_counterexample :
    unsignedModulus = 2 ^ 32 ∧
    scanPattern (List.replicate unsignedModulus 'X' ++ ['S']) = ⟨[0], 0⟩ ∧
    positionCount (List.replicate unsignedModulus 'X') = unsignedModulus ∧
    ¬ (∀ k, k ∈ (scanPattern (List.replicate unsignedModulus 'X' ++ ['S'])).first ↔
      ∃ pre post, List.replicate unsignedModulus 'X' ++ ['S'] = pre ++ 'S' :: post ∧
        positionCount pre = k) := by
  have hscan := scanPattern_replicate_X_S unsignedModulus unsignedModulus_pos
  rw [Nat.mod_self] at hscan
  refine ⟨rfl, hscan, positionCount_replicate_X _, fun hall => ?_⟩
  have hmem := (hall unsignedModulus).mpr
    ⟨List.replicate unsignedModulus 'X', [], rfl, positionCount_replicate_X _⟩
  rw [hscan, List.mem_singleton] at hmem
  exact absurd hmem (Nat.ne_of_gt unsignedModulus_pos)

/-- C1, amended: for every pattern string with at most 2^32 characters from
S, T, X the descriptor built by the pattern scan is the reference one: a
position `k` is in `first` (the source positions) exactly when some `S` of
the string is preceded by exactly `k` characters from S, T, X, and, when the
string holds a `T`, `second` (the target position) is the number of
characters from S, T, X that precede the last `T`.  For every pattern string
the positions are these numbers modulo 2^32 (the counter is an `unsigned`),
`first` is in strictly ascending order, as a set is, and the characters
outside S, T, X do not change the result.  In particular `STX` gives
`({0}, 1)` and `SSXT` gives `({0,1}, 3)`. -/
theorem scanPattern_reference (s : CppString) :
    (positionCount s ≤ 2 ^ 32 →
      (∀ k, k ∈ (scanPattern s).first ↔
        ∃ pre post, s = pre ++ 'S' :: post ∧ positionCount pre = k) ∧
      (∀ pre post, s = pre ++ 'T' :: post → 'T' ∉ post →
        (scanPattern s).second = positionCount pre)) ∧
    (∀ k, k ∈ (scanPattern s).first ↔
      ∃ pre post, s = pre ++ 'S' :: post ∧ positionCount pre % 2 ^ 32 = k) ∧
    (∀ pre post, s = pre ++ 'T' :: post → 'T' ∉ post →
      (scanPattern s).second = positionCount pre % 2 ^ 32) ∧
    (scanPattern s).first.Sorted (· < ·) ∧
    scanPattern (s.filter isPositionChar) = scanPattern s ∧
    scanPattern "STX".toList = ⟨[0], 1⟩ ∧
    scanPattern "SSXT".toList = ⟨[0, 1], 3⟩ := by
  obtain ⟨hfirst, hsorted, hsecond⟩ := scanPattern_mod s
  have hM : unsignedModulus = 2 ^ 32 := rfl
  rw [hM] at hfirst hsecond
  refine ⟨fun hb => ⟨fun k => ?_, fun pre post hs hp => ?_⟩, hfirst, hsecond, hsorted, ?_,
    by decide, by decide⟩
  · rw [hfirst k]
    constructor <;> rintro ⟨pre, post, h, hk⟩ <;> refine ⟨pre, post, h, ?_⟩
    · rw [← hk, Nat.mod_eq_of_lt]
      exact lt_of_lt_of_le (positionCount_prefix_lt 'S' (by decide) s pre post h) hb
    · rw [← hk, Nat.mod_eq_of_lt]
      exact lt_of_lt_of_le (positionCount_prefix_lt 'S' (by decide) s pre post h) hb
  · rw [hsecond pre post hs hp, Nat.mod_eq_of_lt]
    exact lt_of_lt_of_le (positionCount_prefix_lt 'T' (by decide) s pre post hs) hb
  · unfold scanPattern
    rw [scan_fold_filter]

/-- C1, amended, on the pattern `SXTS`: the last `T` is preceded by two
position characters, and the `S` after it takes position 3. -/
theorem scanPattern_reference_witness :
    positionCount "SXTS".toList ≤ 2 ^ 32 ∧
    (scanPattern "SXTS".toList).second = positionCount "SX".toList ∧
    3 ∈ (scanPattern "SXTS".toList).first :=
  ⟨by decide,
    ((scanPattern_reference "SXTS".toList).1 (by decide)).2 "SX".toList "S".toList rfl
      (by decide),
    (((scanPattern_reference "SXTS".toList).1 (by decide)).1 3).mpr
      ⟨"SXT".toList, [], rfl, by decide⟩⟩

/-! ## Maps and the vertex lookup -/

theorem mapFind_mapEmplace {κ β : Type} [LinearOrder κ] (k : κ) (v : β) (m : List (κ × β))
    (h : mapFind k m = none) (k1 : κ) :
    mapFind k1 (mapEmplace k v m) = if k = k1 then some v else mapFind k1 m := by
  induction m with
  | nil => simp [mapEmplace, mapFind]
  | cons e es ih =>
    have hne : e.1 ≠ k := by
      intro he
      simp [mapFind, he] at h
    have hes : mapFind k es = none := by
      simpa [mapFind, hne] using h
    unfold mapEmplace
    by_cases h1 : k < e.1
    · simp [h1, mapFind]
    · have h2 : e.1 < k := lt_of_le_of_ne (not_lt.mp h1) hne
      simp only [h1, h2, if_true, if_false, mapFind, ih hes]
      by_cases h3 : e.1 = k1
      · have : k ≠ k1 := fun e2 => hne (h3.trans e2.symm)
        simp [h3, this]
      · simp [h3]

theorem builderInv_empty {V : Type} [LinearOrder V] :
    BuilderInv ((BoostGraph.empty, []) : Builder V) := by
  constructor
  · intro k i
    simp [mapFind, BoostGraph.empty]
  · intro e he
    simp [BoostGraph.empty] at he

theorem builderInv_nodup {V : Type} [LinearOrder V] (st : Builder V) (h : BuilderInv st) :
    st.1.vertices.Nodup := by
  rw [List.nodup_iff_injective_get]
  intro a b hab
  have ha : st.1.vertices[a.1]? = some (st.1.vertices.get a) := by
    simp [List.getElem?_eq_getElem a.2]
  have hb : st.1.vertices[b.1]? = some (st.1.vertices.get a) := by
    rw [hab]; simp [List.getElem?_eq_getElem b.2]
  have h1 := (h.1 _ _).mpr ha
  have h2 := (h.1 _ _).mpr hb
  rw [h1] at h2
  exact Fin.ext (Option.some.inj h2)

theorem namedEdges_of_append {V : Type} (g g1 : BoostGraph V) (ext : List V)
    (hv : g1.vertices = g.vertices ++ ext) (he : g1.edges = g.edges)
    (hb : ∀ e ∈ g.edges, e.1 < g.vertices.length ∧ e.2.1 < g.vertices.length) :
    namedEdges g1 = namedEdges g := by
  unfold namedEdges
  rw [he, hv]
  apply List.map_congr_left
  intro e hmem
  obtain ⟨h1, h2⟩ := hb e hmem
  rw [List.getElem?_append_left h1, List.getElem?_append_left h2]

theorem builderExtends_refl {V : Type} [LinearOrder V] (st : Builder V) (h : BuilderInv st) :
    BuilderExtends st st [] (fun _ => False) :=
  ⟨h, ⟨[], by simp⟩, by simp, fun x => by simp⟩

theorem builderExtends_trans {V : Type} [LinearOrder V] {a b c : Builder V}
    {L1 L2 : List (V × V × CppString)} {P1 P2 : V → Prop}
    (h1 : BuilderExtends a b L1 P1) (h2 : BuilderExtends b c L2 P2) :
    BuilderExtends a c (L1 ++ L2) (fun x => P1 x ∨ P2 x) := by
  obtain ⟨_, ⟨e1, hv1⟩, he1, hm1⟩ := h1
  obtain ⟨i2, ⟨e2, hv2⟩, he2, hm2⟩ := h2
  refine ⟨i2, ⟨e1 ++ e2, by rw [hv2, hv1, List.append_assoc]⟩, ?_, fun x => ?_⟩
  · rw [he2, he1, List.map_append, List.append_assoc]
  · rw [hm2, hm1, or_assoc]

theorem builderExtends_congr {V : Type} [LinearOrder V] {a b : Builder V}
    {L1 L2 : List (V × V × CppString)} {P1 P2 : V → Prop}
    (h : BuilderExtends a b L1 P1) (hL : L1 = L2) (hP : ∀ x, P1 x ↔ P2 x) :
    BuilderExtends a b L2 P2 := by
  subst hL
  obtain ⟨i, v, e, m⟩ := h
  exact ⟨i, v, e, fun x => by rw [m, hP]⟩

/-- The vertex lookup returns the vertex of the key and adds at most that
vertex. -/
theorem getVertex_extends {V : Type} [LinearOrder V] (key : V) (st : Builder V)
    (h : BuilderInv st) :
    BuilderExtends st (getVertex key st).2 [] (fun x => x = key) ∧
    (getVertex key st).2.1.vertices[(getVertex key st).1]? = some key := by
  unfold getVertex
  cases hf : mapFind key st.2 with
  | some v =>
    have hv := (h.1 key v).mp hf
    refine ⟨⟨h, ⟨[], by simp⟩, by simp, fun x => ?_⟩, hv⟩
    simp only [iff_self_or]
    rintro rfl
    exact List.getElem?_mem hv
  | none =>
    have hnot : key ∉ st.1.vertices := by
      intro hmem
      obtain ⟨i, hi, hget⟩ := List.getElem_of_mem hmem
      have := (h.1 key i).mpr (by rw [List.getElem?_eq_getElem hi, hget])
      rw [hf] at this
      cases this
    simp only
    refine ⟨⟨⟨fun k i => ?_, fun e he => ?_⟩, ⟨[key], rfl⟩, ?_, fun x => ?_⟩, ?_⟩
    · rw [mapFind_mapEmplace key _ st.2 hf k]
      simp only [BoostGraph.add_vertex]
      by_cases hk : key = k
      · subst hk
        simp only [if_true, Option.some.injEq]
        constructor
        · intro hi
          subst hi
          simp
        · intro hi
          by_contra hne
          have hlt : i < st.1.vertices.length := by
            have := (List.getElem?_eq_some_iff.mp hi).1
            simp at this
            omega
          rw [List.getElem?_append_left hlt] at hi
          exact hnot (List.getElem?_mem hi)
      · simp only [hk, if_false]
        rw [h.1 k i]
        constructor
        · intro hi
          have hlt : i < st.1.vertices.length := (List.getElem?_eq_some_iff.mp hi).1
          rw [List.getElem?_append_left hlt]
          exact hi
        · intro hi
          have hlt0 := (List.getElem?_eq_some_iff.mp hi).1
          simp at hlt0
          by_cases hlt : i < st.1.vertices.length
          · rw [List.getElem?_append_left hlt] at hi
            exact hi
          · have hi2 : i = st.1.vertices.length := by omega
            subst hi2
            simp at hi
            exact absurd hi hk
    · simp only [BoostGraph.add_vertex] at he ⊢
      obtain ⟨h1, h2⟩ := h.2 e he
      simp
      omega
    · simp only [List.map_nil, List.append_nil]
      exact namedEdges_of_append st.1 _ [key] rfl rfl h.2
    · simp [BoostGraph.add_vertex]
    · simp [BoostGraph.add_vertex]

/-- Adding an edge between two existing vertices. -/
theorem add_edge_extends {V : Type} [LinearOrder V] (st : Builder V) (h : BuilderInv st)
    (u v : Nat) (a b : V) (name : CppString)
    (hu : st.1.vertices[u]? = some a) (hv : st.1.vertices[v]? = some b) :
    BuilderExtends st (st.1.add_edge u v name, st.2) [(a, b, name)] (fun _ => False) := by
  refine ⟨⟨h.1, fun e he => ?_⟩, ⟨[], by simp [BoostGraph.add_edge]⟩, ?_, fun x => by
    simp [BoostGraph.add_edge]⟩
  · simp only [BoostGraph.add_edge, List.mem_append, List.mem_singleton] at he ⊢
    rcases he with he | rfl
    · exact h.2 e he
    · exact ⟨(List.getElem?_eq_some_iff.mp hu).1, (List.getElem?_eq_some_iff.mp hv).1⟩
  · simp [namedEdges, BoostGraph.add_edge, namedEdge, hu, hv]

/-- A vertex keeps its descriptor in every later state. -/
theorem builderExtends_getElem {V : Type} [LinearOrder V] {a b : Builder V}
    {L : List (V × V × CppString)} {P : V → Prop} (h : BuilderExtends a b L P)
    (i : Nat) (x : V) (hi : a.1.vertices[i]? = some x) : b.1.vertices[i]? = some x := by
  obtain ⟨_, ⟨ext, hv⟩, _, _⟩ := h
  rw [hv, List.getElem?_append_left (List.getElem?_eq_some_iff.mp hi).1]
  exact hi

/-! ## The loops of printFuncRelDeps -/

theorem variableAt_of_var (atom : AstAtom) (idx : Nat) (name : CppString)
    (h : atom.getArgument idx = some (AstArgument.var name)) :
    atom.variableAt idx = some name := by
  simp [AstAtom.variableAt, h]

theorem variableAt_of_compound (atom : AstAtom) (idx : Nat) (cs : List AstArgument)
    (h : atom.getArgument idx = some (AstArgument.compound cs)) :
    atom.variableAt idx = none := by
  simp [AstAtom.variableAt, h]

theorem sourceLoop_extends (atom : AstAtom) (dstV : Nat) (t : CppString) (srcs : List Nat) :
    ∀ (st st1 : Builder CppString), BuilderInv st → st.1.vertices[dstV]? = some t →
      sourceLoop atom dstV srcs st = some st1 →
      BuilderExtends st st1
        (srcs.filterMap (fun s => (atom.variableAt s).map (fun v => (v, t, atom.name))))
        (fun x => ∃ s ∈ srcs, atom.variableAt s = some x) := by
  induction srcs with
  | nil =>
    intro st st1 hinv _ hrun
    simp only [sourceLoop, Option.some.injEq] at hrun
    subst hrun
    exact builderExtends_congr (builderExtends_refl st hinv) rfl (fun x => by simp)
  | cons s rest ih =>
    intro st st1 hinv hdst hrun
    unfold sourceLoop at hrun
    cases harg : atom.getArgument s with
    | none => simp [harg] at hrun
    | some arg =>
      cases arg with
      | var name =>
        simp only [harg] at hrun
        obtain ⟨e1, hsrc⟩ := getVertex_extends name st hinv
        have hdst1 := builderExtends_getElem e1 dstV t hdst
        have e2 := add_edge_extends (getVertex name st).2 e1.1 (getVertex name st).1 dstV
          name t atom.name hsrc hdst1
        have hdst2 := builderExtends_getElem e2 dstV t hdst1
        have e3 := ih _ st1 e2.1 hdst2 hrun
        refine builderExtends_congr (builderExtends_trans (builderExtends_trans e1 e2) e3) ?_ ?_
        · simp [List.filterMap_cons, variableAt_of_var atom s name harg]
        · intro x
          simp only [List.mem_cons, exists_eq_or_imp, variableAt_of_var atom s name harg,
            Option.some.injEq, or_false]
          constructor
          · rintro (h | h)
            · exact Or.inl h.symm
            · exact Or.inr h
          · rintro (h | h)
            · exact Or.inl h.symm
            · exact Or.inr h
      | compound cs =>
        simp only [harg] at hrun
        have e3 := ih st st1 hinv hdst hrun
        refine builderExtends_congr e3 ?_ ?_
        · simp [List.filterMap_cons, variableAt_of_compound atom s cs harg]
        · intro x
          simp [variableAt_of_compound atom s cs harg]

theorem sourceLoop_isSome (atom : AstAtom) (dstV : Nat) (srcs : List Nat)
    (h : ∀ s ∈ srcs, s < atom.arguments.length) :
    ∀ st : Builder CppString, ∃ st1, sourceLoop atom dstV srcs st = some st1 := by
  induction srcs with
  | nil => intro st; exact ⟨st, rfl⟩
  | cons s rest ih =>
    intro st
    have hs : s < atom.arguments.length := h s (List.mem_cons_self _ _)
    have hrest := ih (fun x hx => h x (List.mem_cons_of_mem _ hx))
    unfold sourceLoop
    have harg : atom.getArgument s = some (atom.arguments[s]) := by
      simp [AstAtom.getArgument, List.getElem?_eq_getElem hs]
    rw [harg]
    cases atom.arguments[s] with
    | var name => exact hrest _
    | compound cs => exact hrest _

theorem descLoop_extends (atom : AstAtom) (descs : List FunctionalRelationDesc) :
    ∀ (st st1 : Builder CppString), BuilderInv st → descLoop atom descs st = some st1 →
      BuilderExtends st st1 (descs.flatMap (descEdges atom))
        (fun x => ∃ d ∈ descs, DescVertex atom d x) := by
  induction descs with
  | nil =>
    intro st st1 hinv hrun
    simp only [descLoop, Option.some.injEq] at hrun
    subst hrun
    exact builderExtends_congr (builderExtends_refl st hinv) rfl (fun x => by simp)
  | cons d rest ih =>
    intro st st1 hinv hrun
    unfold descLoop at hrun
    cases harg : atom.getArgument d.second with
    | none => simp [harg] at hrun
    | some arg =>
      cases arg with
      | var name =>
        simp only [harg] at hrun
        obtain ⟨e1, hdst⟩ := getVertex_extends name st hinv
        cases hsrc : sourceLoop atom (getVertex name st).1 d.first (getVertex name st).2 with
        | none => simp [hsrc] at hrun
        | some st2 =>
          simp only [hsrc] at hrun
          have e2 := sourceLoop_extends atom _ name d.first _ st2 e1.1 hdst hsrc
          have e3 := ih st2 st1 e2.1 hrun
          refine builderExtends_congr (builderExtends_trans (builderExtends_trans e1 e2) e3)
            ?_ ?_
          · simp [List.flatMap_cons, descEdges, variableAt_of_var atom _ name harg]
          · intro x
            simp only [List.mem_cons, exists_eq_or_imp, DescVertex,
              variableAt_of_var atom _ name harg, Option.some.injEq, exists_eq_left']
      | compound cs =>
        simp only [harg] at hrun
        have e3 := ih st st1 hinv hrun
        refine builderExtends_congr e3 ?_ ?_
        · simp [List.flatMap_cons, descEdges, variableAt_of_compound atom _ cs harg]
        · intro x
          simp [DescVertex, variableAt_of_compound atom _ cs harg]

theorem descLoop_isSome (atom : AstAtom) (descs : List FunctionalRelationDesc)
    (h : ∀ d ∈ descs, d.second < atom.arguments.length ∧
      ∀ s ∈ d.first, s < atom.arguments.length) :
    ∀ st : Builder CppString, ∃ st1, descLoop atom descs st = some st1 := by
  induction descs with
  | nil => intro st; exact ⟨st, rfl⟩
  | cons d rest ih =>
    intro st
    obtain ⟨hd, hs⟩ := h d (List.mem_cons_self _ _)
    have hrest := ih (fun x hx => h x (List.mem_cons_of_mem _ hx))
    unfold descLoop
    have harg : atom.getArgument d.second = some (atom.arguments[d.second]) := by
      simp [AstAtom.getArgument, List.getElem?_eq_getElem hd]
    rw [harg]
    cases atom.arguments[d.second] with
    | var name =>
      simp only
      obtain ⟨st2, h2⟩ := sourceLoop_isSome atom (getVertex name st).1 d.first hs
        (getVertex name st).2
      rw [h2]
      exact hrest _
    | compound cs => exact hrest _

theorem atomLoop_extends (funcRels : List (CppString × FunctionalRelationDesc))
    (atoms : List AstAtom) :
    ∀ (st st1 : Builder CppString), BuilderInv st → atomLoop funcRels atoms st = some st1 →
      BuilderExtends st st1
        (atoms.flatMap (fun a => (equal_range funcRels a.name).flatMap (descEdges a)))
        (fun x => ∃ a ∈ atoms, ∃ d ∈ equal_range funcRels a.name, DescVertex a d x) := by
  induction atoms with
  | nil =>
    intro st st1 hinv hrun
    simp only [atomLoop, Option.some.injEq] at hrun
    subst hrun
    exact builderExtends_congr (builderExtends_refl st hinv) rfl (fun x => by simp)
  | cons a rest ih =>
    intro st st1 hinv hrun
    unfold atomLoop at hrun
    simp only at hrun
    by_cases hempty : (equal_range funcRels a.name).isEmpty = true
    · rw [if_pos hempty] at hrun
      have hnil : equal_range funcRels a.name = [] := List.isEmpty_iff.mp hempty
      have e3 := ih st st1 hinv hrun
      refine builderExtends_congr e3 ?_ ?_
      · simp [List.flatMap_cons, hnil]
      · intro x
        simp [hnil]
    · rw [if_neg hempty] at hrun
      cases hd : descLoop a (equal_range funcRels a.name) st with
      | none => simp [hd] at hrun
      | some st2 =>
        simp only [hd] at hrun
        have e1 := descLoop_extends a _ st st2 hinv hd
        have e3 := ih st2 st1 e1.1 hrun
        refine builderExtends_congr (builderExtends_trans e1 e3) ?_ ?_
        · simp [List.flatMap_cons]
        · intro x
          simp only [List.mem_cons, exists_eq_or_imp]

theorem atomLoop_isSome (funcRels : List (CppString × FunctionalRelationDesc))
    (atoms : List AstAtom)
    (h : ∀ a ∈ atoms, ∀ d ∈ equal_range funcRels a.name,
      d.second < a.arguments.length ∧ ∀ s ∈ d.first, s < a.arguments.length) :
    ∀ st : Builder CppString, ∃ st1, atomLoop funcRels atoms st = some st1 := by
  induction atoms with
  | nil => intro st; exact ⟨st, rfl⟩
  | cons a rest ih =>
    intro st
    have hrest := ih (fun x hx => h x (List.mem_cons_of_mem _ hx))
    unfold atomLoop
    simp only
    by_cases hempty : (equal_range funcRels a.name).isEmpty = true
    · rw [if_pos hempty]
      exact hrest _
    · rw [if_neg hempty]
      obtain ⟨st2, h2⟩ := descLoop_isSome a _ (h a (List.mem_cons_self _ _)) st
      rw [h2]
      exact hrest _

/-! ## The dependency graph -/

/-- The result of `printFuncRelDeps`, when there is one: its edges are those of
the comprehension, its vertices are distinct and are the variables at the
positions of the descriptor occurrences, and every edge joins two vertices. -/
theorem printFuncRelDeps_extends (funcRels : List (CppString × FunctionalRelationDesc))
    (cls : AstClause) (g : Graph) (h : printFuncRelDeps funcRels cls = some g) :
    namedEdges g = (dependencyEdges funcRels cls).map namedEdge ∧
    g.vertices.Nodup ∧
    (∀ x, x ∈ g.vertices ↔
      ∃ a ∈ cls.getAtoms, ∃ d ∈ equal_range funcRels a.2.name, DescVertex a.2 d x) ∧
    (∀ e ∈ g.edges, e.1 < g.vertices.length ∧ e.2.1 < g.vertices.length) := by
  unfold printFuncRelDeps at h
  cases hrun : atomLoop funcRels (cls.getAtoms.map Prod.snd) (BoostGraph.empty, []) with
  | none => simp [hrun] at h
  | some st =>
    simp only [hrun, Option.map_some', Option.some.injEq] at h
    subst h
    obtain ⟨hinv, _, hedges, hverts⟩ :=
      atomLoop_extends funcRels _ _ st builderInv_empty hrun
    refine ⟨?_, builderInv_nodup st hinv, fun x => ?_, hinv.2⟩
    · rw [hedges, List.flatMap_map]
      simp [namedEdges, BoostGraph.empty, dependencyEdges]
    · rw [hverts]
      simp only [BoostGraph.empty, List.not_mem_nil, false_or, List.mem_map]
      constructor
      · rintro ⟨a, ⟨p, hp, rfl⟩, d, hd, hx⟩
        exact ⟨p, hp, d, hd, hx⟩
      · rintro ⟨p, hp, d, hd, hx⟩
        exact ⟨p.2, ⟨p, hp, rfl⟩, d, hd, hx⟩

theorem printFuncRelDeps_isSome (funcRels : List (CppString × FunctionalRelationDesc))
    (cls : AstClause) (h : PositionsInRange funcRels cls) :
    ∃ g, printFuncRelDeps funcRels cls = some g := by
  obtain ⟨st, hst⟩ := atomLoop_isSome funcRels (cls.getAtoms.map Prod.snd)
    (by
      intro a ha d hd
      obtain ⟨p, hp, rfl⟩ := List.mem_map.mp ha
      exact h p hp d hd)
    (BoostGraph.empty, [])
  exact ⟨st.1, by simp [printFuncRelDeps, hst]⟩

theorem mem_descEdges (atom : AstAtom) (d : FunctionalRelationDesc)
    (e : CppString × CppString × CppString) :
    e ∈ descEdges atom d ↔
      atom.variableAt d.second = some e.2.1 ∧ e.2.2 = atom.name ∧
        ∃ s ∈ d.first, atom.variableAt s = some e.1 := by
  obtain ⟨x, t, l⟩ := e
  unfold descEdges
  cases ht : atom.variableAt d.second with
  | none => simp
  | some t1 =>
    simp only [List.mem_filterMap, Option.map_eq_some', Prod.mk.injEq, Option.some.injEq]
    constructor
    · rintro ⟨s, hs, x1, hx, rfl, rfl, rfl⟩
      exact ⟨rfl, rfl, s, hs, hx⟩
    · rintro ⟨rfl, rfl, s, hs, hx⟩
      exact ⟨s, hs, x, hx, rfl, rfl, rfl⟩

/-- A self-loop among the edges, seen on the descriptors and on the names. -/
theorem selfLoop_iff_named {V : Type} [LinearOrder V] (g : BoostGraph V)
    (hn : g.vertices.Nodup)
    (hb : ∀ e ∈ g.edges, e.1 < g.vertices.length ∧ e.2.1 < g.vertices.length) :
    (∃ e ∈ g.edges, e.1 = e.2.1) ↔ ∃ e ∈ namedEdges g, e.1 = e.2.1 := by
  unfold namedEdges
  constructor
  · rintro ⟨e, he, heq⟩
    exact ⟨_, List.mem_map.mpr ⟨e, he, rfl⟩, by simp [heq]⟩
  · rintro ⟨n, hn1, heq⟩
    obtain ⟨e, he, rfl⟩ := List.mem_map.mp hn1
    refine ⟨e, he, ?_⟩
    obtain ⟨h1, h2⟩ := hb e he
    simp only [List.getElem?_eq_getElem h1, List.getElem?_eq_getElem h2,
      Option.some.injEq] at heq
    exact (List.Nodup.getElem_inj_iff hn).mp heq

/-- C2: under the proviso that every descriptor position is below the arity
of the atoms it is applied to, `printFuncRelDeps` builds a graph whose edges,
read through the vertex names, are exactly the edges `v → t` named after the
relation, one for every atom occurrence, every descriptor registered under its
name whose target position holds a variable `t`, and every source position
holding a variable `v`, with multiplicity.  For `f` registered with
`({0}, 1)` the atom `f(a,b)` gives the single edge `a → b` named `f`. -/
theorem printFuncRelDeps_edges (funcRels : List (CppString × FunctionalRelationDesc))
    (cls : AstClause) (h : PositionsInRange funcRels cls) :
    (∃ g, printFuncRelDeps funcRels cls = some g ∧
      namedEdges g = (dependencyEdges funcRels cls).map namedEdge) ∧
    (∀ e, e ∈ dependencyEdges funcRels cls ↔
      ∃ a ∈ cls.getAtoms, ∃ d ∈ equal_range funcRels a.2.name,
        a.2.variableAt d.second = some e.2.1 ∧ e.2.2 = a.2.name ∧
          ∃ s ∈ d.first, a.2.variableAt s = some e.1) ∧
    (printFuncRelDeps [(['f'], ⟨[0], 1⟩)]
        (clauseOf [mkAtom "f" [mkVar "a", mkVar "b"]])).map namedEdges =
      some [(some ['a'], some ['b'], ['f'])] := by
  refine ⟨?_, fun e => ?_, by decide⟩
  · obtain ⟨g, hg⟩ := printFuncRelDeps_isSome funcRels cls h
    exact ⟨g, hg, (printFuncRelDeps_extends funcRels cls g hg).1⟩
  · simp only [dependencyEdges, List.mem_flatMap, mem_descEdges]

/-- C2, on an atom `f(a, c, a, b)` with `c` a constant and `f` registered with
`({0,1,2}, 3)`: the constant contributes no edge, and the two source positions
holding `a` give two parallel edges `a → b`. -/
theorem printFuncRelDeps_edges_witness :
    PositionsInRange [(['f'], ⟨[0, 1, 2], 3⟩)]
        (clauseOf [mkAtom "f" [mkVar "a", mkConst, mkVar "a", mkVar "b"]]) ∧
    ∃ g, printFuncRelDeps [(['f'], ⟨[0, 1, 2], 3⟩)]
        (clauseOf [mkAtom "f" [mkVar "a", mkConst, mkVar "a", mkVar "b"]]) = some g ∧
      namedEdges g = [(some ['a'], some ['b'], ['f']), (some ['a'], some ['b'], ['f'])] :=
  ⟨by unfold PositionsInRange; decide,
    (printFuncRelDeps_edges [(['f'], ⟨[0, 1, 2], 3⟩)]
      (clauseOf [mkAtom "f" [mkVar "a", mkConst, mkVar "a", mkVar "b"]])
      (by unfold PositionsInRange; decide)).1⟩

/-- The loop over the equal range, taken in two stretches. -/
theorem descLoop_append (atom : AstAtom) (ds1 ds2 : List FunctionalRelationDesc) :
    ∀ st, descLoop atom (ds1 ++ ds2) st = (descLoop atom ds1 st).bind (descLoop atom ds2) := by
  induction ds1 with
  | nil => intro st; simp [descLoop]
  | cons d rest ih =>
    intro st
    simp only [List.cons_append, descLoop]
    cases atom.getArgument d.second with
    | none => rfl
    | some arg =>
      cases arg with
      | var name =>
        simp only
        cases sourceLoop atom (getVertex name st).1 d.first (getVertex name st).2 with
        | none => rfl
        | some st1 => exact ih st1
      | compound cs => exact ih st

theorem occurrenceLoop_append (os1 os2 : List (AstAtom × FunctionalRelationDesc)) :
    ∀ st, occurrenceLoop (os1 ++ os2) st =
      (occurrenceLoop os1 st).bind (occurrenceLoop os2) := by
  induction os1 with
  | nil => intro st; simp [occurrenceLoop]
  | cons o rest ih =>
    intro st
    simp only [List.cons_append, occurrenceLoop]
    cases descLoop o.1 [o.2] st with
    | none => rfl
    | some st1 => exact ih st1

theorem occurrenceLoop_map (atom : AstAtom) (ds : List FunctionalRelationDesc) :
    ∀ st, occurrenceLoop (ds.map (fun d => (atom, d))) st = descLoop atom ds st := by
  induction ds with
  | nil => intro st; rfl
  | cons d rest ih =>
    intro st
    have h := descLoop_append atom [d] rest st
    simp only [List.singleton_append] at h
    rw [h, List.map_cons]
    simp only [occurrenceLoop]
    cases descLoop atom [d] st with
    | none => rfl
    | some st1 => exact ih st1

theorem atomLoop_eq_occurrenceLoop (funcRels : List (CppString × FunctionalRelationDesc))
    (atoms : List AstAtom) :
    ∀ st, atomLoop funcRels atoms st =
      occurrenceLoop
        (atoms.flatMap (fun a => (equal_range funcRels a.name).map (fun d => (a, d)))) st := by
  induction atoms with
  | nil => intro st; rfl
  | cons a rest ih =>
    intro st
    rw [List.flatMap_cons, occurrenceLoop_append, occurrenceLoop_map]
    unfold atomLoop
    simp only
    by_cases hempty : (equal_range funcRels a.name).isEmpty = true
    · rw [if_pos hempty, List.isEmpty_iff.mp hempty, ih]
      rfl
    · rw [if_neg hempty]
      cases descLoop a (equal_range funcRels a.name) st with
      | none => rfl
      | some st1 => exact ih st1

theorem printFuncRelDeps_eq_graphOfOccurrences
    (funcRels : List (CppString × FunctionalRelationDesc)) (cls : AstClause) :
    printFuncRelDeps funcRels cls = graphOfOccurrences (occurrences funcRels cls) := by
  unfold printFuncRelDeps graphOfOccurrences occurrences
  rw [atomLoop_eq_occurrenceLoop, List.flatMap_map]

theorem descLoop_single_compound (atom : AstAtom) (d : FunctionalRelationDesc)
    (children : List AstArgument)
    (h : atom.getArgument d.second = some (AstArgument.compound children))
    (st : Builder CppString) : descLoop atom [d] st = some st := by
  simp [descLoop, h]

/-- C9: a descriptor occurrence whose target position holds an argument that
is not a variable leaves the builder state as it is (no vertex, no edge,
whatever its source positions hold), and the graph that `printFuncRelDeps`
builds for the clause is the graph built from its descriptor occurrences with
that occurrence removed. -/
theorem printFuncRelDeps_skips_nonvariable_target
    (funcRels : List (CppString × FunctionalRelationDesc)) (cls : AstClause)
    (pre post : List (AstAtom × FunctionalRelationDesc))
    (atom : AstAtom) (desc : FunctionalRelationDesc) (children : List AstArgument)
    (hocc : occurrences funcRels cls = pre ++ (atom, desc) :: post)
    (htarget : atom.getArgument desc.second = some (AstArgument.compound children)) :
    printFuncRelDeps funcRels cls = graphOfOccurrences (pre ++ post) ∧
    (∀ st, descLoop atom [desc] st = some st) ∧
    printFuncRelDeps funcRels cls = graphOfOccurrences (occurrences funcRels cls) := by
  refine ⟨?_, descLoop_single_compound atom desc children htarget,
    printFuncRelDeps_eq_graphOfOccurrences funcRels cls⟩
  rw [printFuncRelDeps_eq_graphOfOccurrences, hocc]
  unfold graphOfOccurrences
  rw [occurrenceLoop_append, occurrenceLoop_append]
  congr 1
  cases occurrenceLoop pre (BoostGraph.empty, []) with
  | none => rfl
  | some st =>
    simp only [Option.some_bind, occurrenceLoop,
      descLoop_single_compound atom desc children htarget]

/-- C9, on the clause `f(a, c), f(a, b)` with `c` a constant and `f`
registered with `({0}, 1)`: the first occurrence is dropped, and the graph is
the one of the second occurrence alone, with the edge `a → b`. -/
theorem printFuncRelDeps_skips_nonvariable_target_witness :
    printFuncRelDeps [(['f'], ⟨[0], 1⟩)]
        (clauseOf [mkAtom "f" [mkVar "a", mkConst], mkAtom "f" [mkVar "a", mkVar "b"]]) =
      graphOfOccurrences ([] ++ [(mkAtom "f" [mkVar "a", mkVar "b"], ⟨[0], 1⟩)]) ∧
    graphOfOccurrences ([] ++ [(mkAtom "f" [mkVar "a", mkVar "b"], ⟨[0], 1⟩)]) =
      some ⟨[['b'], ['a']], [(1, 0, ['f'])]⟩ :=
  ⟨(printFuncRelDeps_skips_nonvariable_target [(['f'], ⟨[0], 1⟩)]
      (clauseOf [mkAtom "f" [mkVar "a", mkConst], mkAtom "f" [mkVar "a", mkVar "b"]])
      [] [(mkAtom "f" [mkVar "a", mkVar "b"], ⟨[0], 1⟩)]
      (mkAtom "f" [mkVar "a", mkConst]) ⟨[0], 1⟩ [] rfl rfl).1, by decide⟩

/-- C4, refuted as stated: for `f` registered with `({0}, 1)` the atom
`f(a,a)` gives a graph with the single vertex `a` and an edge from it to
itself; for `f` registered with `({0,1}, 1)`, where the target position is
also a source position, the atom `f(a,b)` gives the edge `b → b`. -/
theorem printFuncRelDeps_selfLoop_counterexample :
    printFuncRelDeps [(['f'], ⟨[0], 1⟩)] (clauseOf [mkAtom "f" [mkVar "a", mkVar "a"]]) =
      some ⟨[['a']], [(0, 0, ['f'])]⟩ ∧
    printFuncRelDeps [(['f'], ⟨[0, 1], 1⟩)] (clauseOf [mkAtom "f" [mkVar "a", mkVar "b"]]) =
      some ⟨[['b'], ['a']], [(1, 0, ['f']), (0, 0, ['f'])]⟩ ∧
    ¬ (∀ funcRels cls g, printFuncRelDeps funcRels cls = some g →
        ∀ e ∈ g.edges, e.1 ≠ e.2.1) := by
  refine ⟨by decide, by decide, fun h => ?_⟩
  exact h [(['f'], ⟨[0], 1⟩)] (clauseOf [mkAtom "f" [mkVar "a", mkVar "a"]])
    ⟨[['a']], [(0, 0, ['f'])]⟩ (by decide) (0, 0, ['f']) (by simp) rfl

/-- C4, amended: the graph built by `printFuncRelDeps` has an edge from a
vertex to itself exactly when some descriptor occurrence of the clause holds
the same variable at its target position and at one of its source positions;
in every other case no edge has the same variable as source and target. -/
theorem printFuncRelDeps_selfLoop_iff (funcRels : List (CppString × FunctionalRelationDesc))
    (cls : AstClause) (g : Graph) (h : printFuncRelDeps funcRels cls = some g) :
    (∃ e ∈ g.edges, e.1 = e.2.1) ↔
      ∃ a ∈ cls.getAtoms, ∃ d ∈ equal_range funcRels a.2.name, ∃ t,
        a.2.variableAt d.second = some t ∧ ∃ s ∈ d.first, a.2.variableAt s = some t := by
  obtain ⟨hedges, hnodup, _, hbound⟩ := printFuncRelDeps_extends funcRels cls g h
  rw [selfLoop_iff_named g hnodup hbound, hedges]
  constructor
  · rintro ⟨n, hn, heq⟩
    obtain ⟨e, he, rfl⟩ := List.mem_map.mp hn
    simp only [dependencyEdges, List.mem_flatMap, mem_descEdges] at he
    obtain ⟨a, ha, d, hd, ht, _, s, hs, hx⟩ := he
    simp only [namedEdge, Option.some.injEq] at heq
    exact ⟨a, ha, d, hd, e.2.1, ht, s, hs, by rw [hx, heq]⟩
  · rintro ⟨a, ha, d, hd, t, ht, s, hs, hx⟩
    refine ⟨namedEdge (t, t, a.2.name), List.mem_map.mpr ⟨(t, t, a.2.name), ?_, rfl⟩, rfl⟩
    simp only [dependencyEdges, List.mem_flatMap, mem_descEdges]
    exact ⟨a, ha, d, hd, ht, rfl, s, hs, hx⟩

/-- C4, amended, on `f(a,b)` with `f` registered with `({0}, 1)`: the graph
has the one edge `a → b`, and it has no self-loop because no occurrence holds
one variable at both a source and the target position. -/
theorem printFuncRelDeps_selfLoop_iff_witness :
    printFuncRelDeps [(['f'], ⟨[0], 1⟩)] (clauseOf [mkAtom "f" [mkVar "a", mkVar "b"]]) =
      some ⟨[['b'], ['a']], [(1, 0, ['f'])]⟩ ∧
    ((∃ e ∈ [((1 : Nat), (0 : Nat), ['f'])], e.1 = e.2.1) ↔
      ∃ a ∈ (clauseOf [mkAtom "f" [mkVar "a", mkVar "b"]]).getAtoms,
        ∃ d ∈ equal_range [(['f'], (⟨[0], 1⟩ : FunctionalRelationDesc))] a.2.name, ∃ t,
          a.2.variableAt d.second = some t ∧ ∃ s ∈ d.first, a.2.variableAt s = some t) :=
  ⟨by decide,
    printFuncRelDeps_selfLoop_iff [(['f'], ⟨[0], 1⟩)]
      (clauseOf [mkAtom "f" [mkVar "a", mkVar "b"]]) ⟨[['b'], ['a']], [(1, 0, ['f'])]⟩
      (by decide)⟩

/-- C10: the vertices of the graph built by `printFuncRelDeps` carry pairwise
distinct names, and a name is a vertex exactly when it is the variable at the
target position, or at a source position, of a descriptor registered for some
atom of the clause whose target position holds a variable.  A graph is built
whenever the descriptor positions are below the arities.  When no atom of the
clause has a registered relation name the graph has no vertices and no edges
(as for `p(x,y), q(y,z)` with nothing registered), and `f(a,b)` with `f`
registered as `({0}, 1)` gives exactly the two vertices `a` and `b`. -/
theorem printFuncRelDeps_vertices (funcRels : List (CppString × FunctionalRelationDesc))
    (cls : AstClause) :
    (∀ g, printFuncRelDeps funcRels cls = some g →
      g.vertices.Nodup ∧
      ∀ x, x ∈ g.vertices ↔
        ∃ a ∈ cls.getAtoms, ∃ d ∈ equal_range funcRels a.2.name, ∃ t,
          a.2.variableAt d.second = some t ∧
            (x = t ∨ ∃ s ∈ d.first, a.2.variableAt s = some x)) ∧
    (PositionsInRange funcRels cls → ∃ g, printFuncRelDeps funcRels cls = some g) ∧
    ((∀ a ∈ cls.getAtoms, equal_range funcRels a.2.name = []) →
      printFuncRelDeps funcRels cls = some ⟨[], []⟩) ∧
    printFuncRelDeps []
        (clauseOf [mkAtom "p" [mkVar "x", mkVar "y"], mkAtom "q" [mkVar "y", mkVar "z"]]) =
      some ⟨[], []⟩ ∧
    (printFuncRelDeps [(['f'], ⟨[0], 1⟩)]
        (clauseOf [mkAtom "f" [mkVar "a", mkVar "b"]])).map BoostGraph.vertices =
      some [['b'], ['a']] := by
  refine ⟨fun g hg => ?_, printFuncRelDeps_isSome funcRels cls, fun hnone => ?_,
    by decide, by decide⟩
  · obtain ⟨_, hnodup, hverts, _⟩ := printFuncRelDeps_extends funcRels cls g hg
    exact ⟨hnodup, fun x => by rw [hverts]; rfl⟩
  · rw [printFuncRelDeps_eq_graphOfOccurrences]
    have hocc : occurrences funcRels cls = [] := by
      unfold occurrences
      rw [List.flatMap_eq_nil_iff]
      intro a ha
      rw [hnone a ha]
      rfl
    rw [hocc]
    rfl

/-- C10, on `f(a,b)` with `f` registered as `({0}, 1)`: the graph has the two
distinct vertices `b` and `a`, which are the target and the source variable. -/
theorem printFuncRelDeps_vertices_witness :
    [['b'], ['a']].Nodup ∧
    ∀ x, x ∈ [['b'], ['a']] ↔
      ∃ a ∈ (clauseOf [mkAtom "f" [mkVar "a", mkVar "b"]]).getAtoms,
        ∃ d ∈ equal_range [(['f'], (⟨[0], 1⟩ : FunctionalRelationDesc))] a.2.name, ∃ t,
          a.2.variableAt d.second = some t ∧
            (x = t ∨ ∃ s ∈ d.first, a.2.variableAt s = some x) :=
  (printFuncRelDeps_vertices [(['f'], ⟨[0], 1⟩)]
    (clauseOf [mkAtom "f" [mkVar "a", mkVar "b"]])).1 ⟨[['b'], ['a']], [(1, 0, ['f'])]⟩
    (by decide)

/-! ## Sets of names -/

mutual
theorem collectVariableNames_sorted :
    ∀ (arg : AstArgument) (vars : List CppString), vars.Sorted (· < ·) →
      (collectVariableNames arg vars).Sorted (· < ·)
  | AstArgument.var name, vars, h => by
    rw [collectVariableNames]
    exact setInsert_sorted name vars h
  | AstArgument.compound children, vars, h => by
    rw [collectVariableNames]
    exact collectChildNodes_sorted children vars h
theorem collectChildNodes_sorted :
    ∀ (children : List AstArgument) (vars : List CppString), vars.Sorted (· < ·) →
      (collectChildNodes children vars).Sorted (· < ·)
  | [], vars, h => by
    rw [collectChildNodes]
    exact h
  | child :: rest, vars, h => by
    rw [collectChildNodes]
    exact collectChildNodes_sorted rest _ (collectVariableNames_sorted child vars h)
end

theorem literalVariables_sorted (l : AstLiteral) : (literalVariables l).Sorted (· < ·) := by
  cases l with
  | atom a => exact collectChildNodes_sorted _ _ (List.sorted_nil)
  | binaryConstraint lhs rhs =>
    exact collectVariableNames_sorted _ _ (collectVariableNames_sorted _ _ List.sorted_nil)

theorem setIntersectionLoop_spec {α : Type} [LinearOrder α] :
    ∀ (n : Nat) (xs ys : List α), xs.length + ys.length ≤ n →
      xs.Sorted (· < ·) → ys.Sorted (· < ·) →
      (∀ z, z ∈ setIntersectionLoop n xs ys ↔ z ∈ xs ∧ z ∈ ys) ∧
      (setIntersectionLoop n xs ys).Sorted (· < ·) := by
  intro n
  induction n with
  | zero =>
    intro xs ys hlen _ _
    have hx : xs = [] := List.eq_nil_of_length_eq_zero (by omega)
    subst hx
    simp [setIntersectionLoop]
  | succ n ih =>
    intro xs ys hlen hxs hys
    cases xs with
    | nil => simp [setIntersectionLoop]
    | cons x xs =>
      cases ys with
      | nil => simp [setIntersectionLoop]
      | cons y ys =>
        simp only [List.length_cons] at hlen
        have hx' := List.Sorted.of_cons hxs
        have hy' := List.Sorted.of_cons hys
        have hxlt : ∀ z ∈ xs, x < z := fun z hz => List.rel_of_sorted_cons hxs z hz
        have hylt : ∀ z ∈ ys, y < z := fun z hz => List.rel_of_sorted_cons hys z hz
        unfold setIntersectionLoop
        by_cases h1 : x < y
        · simp only [h1, if_true]
          obtain ⟨hm, hs⟩ := ih xs (y :: ys) (by simp only [List.length_cons]; omega) hx' hys
          refine ⟨fun z => ?_, hs⟩
          rw [hm z]
          constructor
          · rintro ⟨hz1, hz2⟩
            exact ⟨List.mem_cons_of_mem _ hz1, hz2⟩
          · rintro ⟨hz1, hz2⟩
            refine ⟨?_, hz2⟩
            rcases List.mem_cons.mp hz1 with rfl | hz1
            · exfalso
              rcases List.mem_cons.mp hz2 with rfl | hz2
              · exact lt_irrefl _ h1
              · exact lt_asymm h1 (hylt _ hz2)
            · exact hz1
        · by_cases h2 : y < x
          · simp only [h1, h2, if_true, if_false]
            obtain ⟨hm, hs⟩ := ih (x :: xs) ys (by simp only [List.length_cons]; omega) hxs hy'
            refine ⟨fun z => ?_, hs⟩
            rw [hm z]
            constructor
            · rintro ⟨hz1, hz2⟩
              exact ⟨hz1, List.mem_cons_of_mem _ hz2⟩
            · rintro ⟨hz1, hz2⟩
              refine ⟨hz1, ?_⟩
              rcases List.mem_cons.mp hz2 with rfl | hz2
              · exfalso
                rcases List.mem_cons.mp hz1 with rfl | hz1
                · exact lt_irrefl _ h2
                · exact lt_asymm h2 (hxlt _ hz1)
              · exact hz2
          · have hxy : x = y := le_antisymm (not_lt.mp h2) (not_lt.mp h1)
            subst hxy
            simp only [h1, if_false]
            obtain ⟨hm, hs⟩ := ih xs ys (by omega) hx' hy'
            refine ⟨fun z => ?_, ?_⟩
            · simp only [List.mem_cons, hm z]
              constructor
              · rintro (rfl | ⟨hz1, hz2⟩)
                · exact ⟨Or.inl rfl, Or.inl rfl⟩
                · exact ⟨Or.inr hz1, Or.inr hz2⟩
              · rintro ⟨hz1 | hz1, hz2 | hz2⟩
                · exact Or.inl hz1
                · exact Or.inl hz1
                · exact Or.inl hz2
                · exact Or.inr ⟨hz1, hz2⟩
            · refine List.sorted_cons.mpr ⟨?_, hs⟩
              intro b hb
              exact hxlt b ((hm b).mp hb).1

theorem mem_set_intersection {α : Type} [LinearOrder α] (xs ys : List α)
    (hxs : xs.Sorted (· < ·)) (hys : ys.Sorted (· < ·)) (z : α) :
    z ∈ set_intersection xs ys ↔ z ∈ xs ∧ z ∈ ys :=
  (setIntersectionLoop_spec _ xs ys (le_refl _) hxs hys).1 z

theorem set_intersection_nodup {α : Type} [LinearOrder α] (xs ys : List α)
    (hxs : xs.Sorted (· < ·)) (hys : ys.Sorted (· < ·)) :
    (set_intersection xs ys).Nodup :=
  List.Sorted.nodup (setIntersectionLoop_spec _ xs ys (le_refl _) hxs hys).2

/-! ## The loops of printAtomDeps -/

theorem foldl_add_edge_extends {V : Type} [LinearOrder V] (u w : Nat) (a b : V)
    (names : List CppString) :
    ∀ (st : Builder V), BuilderInv st → st.1.vertices[u]? = some a →
      st.1.vertices[w]? = some b →
      BuilderExtends st (names.foldl (fun g argName => g.add_edge u w argName) st.1, st.2)
        (names.map (fun argName => (a, b, argName))) (fun _ => False) := by
  induction names with
  | nil =>
    intro st hinv _ _
    exact builderExtends_refl st hinv
  | cons n rest ih =>
    intro st hinv hu hw
    have e1 := add_edge_extends st hinv u w a b n hu hw
    have e2 := ih (st.1.add_edge u w n, st.2) e1.1 (builderExtends_getElem e1 u a hu)
      (builderExtends_getElem e1 w b hw)
    exact builderExtends_congr (builderExtends_trans e1 e2) (by simp) (fun x => by simp)

theorem edgeEndpoint_nil {V : Type} (x : V) : ¬ EdgeEndpoint ([] : List (V × V × CppString)) x := by
  rintro ⟨e, he, _⟩
  cases he

theorem edgeEndpoint_append {V : Type} (L1 L2 : List (V × V × CppString)) (x : V) :
    EdgeEndpoint (L1 ++ L2) x ↔ EdgeEndpoint L1 x ∨ EdgeEndpoint L2 x := by
  unfold EdgeEndpoint
  constructor
  · rintro ⟨e, he, hx⟩
    rcases List.mem_append.mp he with h | h
    · exact Or.inl ⟨e, h, hx⟩
    · exact Or.inr ⟨e, h, hx⟩
  · rintro (⟨e, he, hx⟩ | ⟨e, he, hx⟩)
    · exact ⟨e, List.mem_append_left _ he, hx⟩
    · exact ⟨e, List.mem_append_right _ he, hx⟩

theorem pairStep_extends (p1 p2 : Nat × List CppString) (st : Builder Nat)
    (hinv : BuilderInv st) :
    BuilderExtends st (pairStep p1 p2 st) (pairEdges p1 p2) (EdgeEndpoint (pairEdges p1 p2)) := by
  unfold pairStep
  by_cases heq : p1.1 = p2.1
  · rw [if_pos heq]
    have hnil : pairEdges p1 p2 = [] := by simp [pairEdges, heq]
    rw [hnil]
    exact builderExtends_congr (builderExtends_refl st hinv) rfl
      (fun x => by simp [edgeEndpoint_nil])
  · rw [if_neg heq]
    simp only
    by_cases hempty : (set_intersection p1.2 p2.2).isEmpty = true
    · rw [if_pos hempty]
      have hnil : pairEdges p1 p2 = [] := by
        simp [pairEdges, heq, List.isEmpty_iff.mp hempty]
      rw [hnil]
      exact builderExtends_congr (builderExtends_refl st hinv) rfl
        (fun x => by simp [edgeEndpoint_nil])
    · rw [if_neg hempty]
      obtain ⟨e1, hsrc⟩ := getVertex_extends p1.1 st hinv
      obtain ⟨e2, hdst⟩ := getVertex_extends p2.1 (getVertex p1.1 st).2 e1.1
      have hsrc2 := builderExtends_getElem e2 _ _ hsrc
      have e3 := foldl_add_edge_extends (getVertex p1.1 st).1
        (getVertex p2.1 (getVertex p1.1 st).2).1 p1.1 p2.1 (set_intersection p1.2 p2.2)
        (getVertex p2.1 (getVertex p1.1 st).2).2 e2.1 hsrc2 hdst
      refine builderExtends_congr (builderExtends_trans (builderExtends_trans e1 e2) e3) ?_ ?_
      · simp [pairEdges, heq]
      · intro x
        have hne : set_intersection p1.2 p2.2 ≠ [] := fun h => hempty (by simp [h])
        obtain ⟨n, hn⟩ := List.exists_mem_of_ne_nil _ hne
        simp only [or_false, EdgeEndpoint, pairEdges, heq, if_false, List.mem_map]
        constructor
        · intro hx
          exact ⟨(p1.1, p2.1, n), ⟨n, hn, rfl⟩, hx⟩
        · rintro ⟨e, ⟨m, _, rfl⟩, hx⟩
          exact hx

theorem innerLoop_extends (p1 : Nat × List CppString) (rest : List (Nat × List CppString)) :
    ∀ (st : Builder Nat), BuilderInv st →
      BuilderExtends st (rest.foldl (fun s p2 => pairStep p1 p2 s) st)
        (rest.flatMap (pairEdges p1)) (EdgeEndpoint (rest.flatMap (pairEdges p1))) := by
  induction rest with
  | nil =>
    intro st hinv
    exact builderExtends_congr (builderExtends_refl st hinv) rfl
      (fun x => by simp [edgeEndpoint_nil])
  | cons p2 rest ih =>
    intro st hinv
    have e1 := pairStep_extends p1 p2 st hinv
    have e2 := ih (pairStep p1 p2 st) e1.1
    rw [List.foldl_cons, List.flatMap_cons]
    exact builderExtends_congr (builderExtends_trans e1 e2) rfl
      (fun x => (edgeEndpoint_append _ _ x).symm)

theorem pairLoop_extends (argMap : List (Nat × List CppString)) :
    ∀ (st : Builder Nat), BuilderInv st →
      BuilderExtends st (pairLoop argMap st) (sharingEdges argMap)
        (EdgeEndpoint (sharingEdges argMap)) := by
  induction argMap with
  | nil =>
    intro st hinv
    exact builderExtends_congr (builderExtends_refl st hinv) rfl
      (fun x => by simp [sharingEdges, edgeEndpoint_nil])
  | cons p1 rest ih =>
    intro st hinv
    have e1 := innerLoop_extends p1 rest st hinv
    have e2 := ih _ e1.1
    rw [pairLoop, sharingEdges]
    exact builderExtends_congr (builderExtends_trans e1 e2) rfl
      (fun x => (edgeEndpoint_append _ _ x).symm)

/-- The result of `printAtomDeps`: its edges are those of the comprehension
over `argMap`, its vertices are distinct and are the end points of its edges,
and every edge joins two vertices. -/
theorem printAtomDeps_extends (cls : AstClause) :
    namedEdges (printAtomDeps cls) = (sharingEdges (buildArgMap cls)).map namedEdge ∧
    (printAtomDeps cls).vertices.Nodup ∧
    (∀ x, x ∈ (printAtomDeps cls).vertices ↔ EdgeEndpoint (sharingEdges (buildArgMap cls)) x) ∧
    (∀ e ∈ (printAtomDeps cls).edges,
      e.1 < (printAtomDeps cls).vertices.length ∧
        e.2.1 < (printAtomDeps cls).vertices.length) := by
  obtain ⟨hinv, _, hedges, hverts⟩ :=
    pairLoop_extends (buildArgMap cls) (BoostGraph.empty, []) builderInv_empty
  refine ⟨?_, builderInv_nodup _ hinv, fun x => ?_, hinv.2⟩
  · unfold printAtomDeps
    rw [hedges]
    simp [namedEdges, BoostGraph.empty]
  · unfold printAtomDeps
    rw [hverts]
    simp [BoostGraph.empty]

theorem mem_pairEdges (p1 p2 : Nat × List CppString) (e : Nat × Nat × CppString) :
    e ∈ pairEdges p1 p2 ↔
      e.1 = p1.1 ∧ e.2.1 = p2.1 ∧ p1.1 ≠ p2.1 ∧ e.2.2 ∈ set_intersection p1.2 p2.2 := by
  obtain ⟨a, b, n⟩ := e
  unfold pairEdges
  by_cases heq : p1.1 = p2.1
  · simp [heq]
  · simp only [heq, if_false, List.mem_map, Prod.mk.injEq, ne_eq, not_false_eq_true, true_and]
    constructor
    · rintro ⟨m, hm, rfl, rfl, rfl⟩
      exact ⟨rfl, rfl, hm⟩
    · rintro ⟨rfl, rfl, hm⟩
      exact ⟨n, hm, rfl, rfl, rfl⟩

/-- Every edge of the comprehension joins the keys of two entries, and these
keys differ. -/
theorem sharingEdges_endpoints (argMap : List (Nat × List CppString))
    (e : Nat × Nat × CppString) (he : e ∈ sharingEdges argMap) :
    e.1 ∈ argMap.map Prod.fst ∧ e.2.1 ∈ argMap.map Prod.fst ∧ e.1 ≠ e.2.1 := by
  induction argMap with
  | nil => simp [sharingEdges] at he
  | cons p1 rest ih =>
    rw [sharingEdges, List.mem_append] at he
    rcases he with he | he
    · obtain ⟨p2, hp2, hmem⟩ := List.mem_flatMap.mp he
      obtain ⟨h1, h2, h3, _⟩ := (mem_pairEdges p1 p2 e).mp hmem
      refine ⟨by simp [h1], ?_, by rw [h1, h2]; exact h3⟩
      rw [h2]
      exact List.mem_cons_of_mem _ (List.mem_map_of_mem _ hp2)
    · obtain ⟨h1, h2, h3⟩ := ih he
      exact ⟨List.mem_cons_of_mem _ h1, List.mem_cons_of_mem _ h2, h3⟩

/-! ## The map argMap -/

theorem mapEmplace_keys {κ β : Type} [LinearOrder κ] (k : κ) (v : β) (m : List (κ × β))
    (x : κ) : x ∈ (mapEmplace k v m).map Prod.fst ↔ x = k ∨ x ∈ m.map Prod.fst := by
  induction m with
  | nil => simp [mapEmplace]
  | cons e es ih =>
    unfold mapEmplace
    by_cases h1 : k < e.1
    · simp [h1]
    · by_cases h2 : e.1 < k
      · simp only [h1, h2, if_true, if_false, List.map_cons, List.mem_cons, ih]
        tauto
      · have hk : k = e.1 := le_antisymm (not_lt.mp h2) (not_lt.mp h1)
        simp only [h1, h2, if_false, List.map_cons, List.mem_cons]
        constructor
        · intro h; exact Or.inr h
        · rintro (h | h)
          · exact Or.inl (h.trans hk)
          · exact h

theorem mapEmplace_sorted {κ β : Type} [LinearOrder κ] (k : κ) (v : β) (m : List (κ × β))
    (h : (m.map Prod.fst).Sorted (· < ·)) :
    ((mapEmplace k v m).map Prod.fst).Sorted (· < ·) := by
  induction m with
  | nil => simp [mapEmplace]
  | cons e es ih =>
    rw [List.map_cons] at h
    unfold mapEmplace
    by_cases h1 : k < e.1
    · simp only [h1, if_true, List.map_cons]
      refine List.sorted_cons.mpr ⟨?_, h⟩
      intro b hb
      rcases List.mem_cons.mp hb with rfl | hb
      · exact h1
      · exact lt_trans h1 (List.rel_of_sorted_cons h b hb)
    · by_cases h2 : e.1 < k
      · simp only [h1, h2, if_true, if_false, List.map_cons]
        refine List.sorted_cons.mpr ⟨?_, ih (List.Sorted.of_cons h)⟩
        intro b hb
        rcases (mapEmplace_keys k v es b).mp hb with rfl | hb
        · exact h2
        · exact List.rel_of_sorted_cons h b hb
      · simp only [h1, h2, if_false, List.map_cons]
        exact h

theorem mem_mapEmplace {κ β : Type} [LinearOrder κ] (k : κ) (v : β) (m : List (κ × β))
    (hk : k ∉ m.map Prod.fst) (e : κ × β) :
    e ∈ mapEmplace k v m ↔ e = (k, v) ∨ e ∈ m := by
  induction m with
  | nil => simp [mapEmplace]
  | cons x xs ih =>
    have hx : x.1 ≠ k := fun h => hk (by simp [h])
    have hxs : k ∉ xs.map Prod.fst := fun h => hk (List.mem_cons_of_mem _ h)
    unfold mapEmplace
    by_cases h1 : k < x.1
    · simp [h1]
    · have h2 : x.1 < k := lt_of_le_of_ne (not_lt.mp h1) hx
      simp only [h1, h2, if_true, if_false, List.mem_cons, ih hxs]
      tauto

theorem foldl_mapEmplace_sorted {κ α β : Type} [LinearOrder κ] (f : α → β)
    (l : List (κ × α)) :
    ∀ acc : List (κ × β), (acc.map Prod.fst).Sorted (· < ·) →
      ((l.foldl (fun m p => mapEmplace p.1 (f p.2) m) acc).map Prod.fst).Sorted (· < ·) := by
  induction l with
  | nil => intro acc h; exact h
  | cons p rest ih =>
    intro acc h
    exact ih _ (mapEmplace_sorted p.1 (f p.2) acc h)

theorem mem_foldl_mapEmplace {κ α β : Type} [LinearOrder κ] (f : α → β)
    (l : List (κ × α)) :
    ∀ acc : List (κ × β), (l.map Prod.fst).Nodup → (∀ p ∈ l, p.1 ∉ acc.map Prod.fst) →
      ∀ e, e ∈ l.foldl (fun m p => mapEmplace p.1 (f p.2) m) acc ↔
        e ∈ acc ∨ ∃ p ∈ l, e = (p.1, f p.2) := by
  induction l with
  | nil => intro acc _ _ e; simp
  | cons p rest ih =>
    intro acc hnd hdis e
    rw [List.map_cons, List.nodup_cons] at hnd
    have hp : p.1 ∉ acc.map Prod.fst := hdis p (List.mem_cons_self _ _)
    have hdis2 : ∀ q ∈ rest, q.1 ∉ (mapEmplace p.1 (f p.2) acc).map Prod.fst := by
      intro q hq hmem
      rcases (mapEmplace_keys p.1 (f p.2) acc q.1).mp hmem with h | h
      · exact hnd.1 (h ▸ List.mem_map_of_mem _ hq)
      · exact hdis q (List.mem_cons_of_mem _ hq) h
    rw [List.foldl_cons, ih _ hnd.2 hdis2 e, mem_mapEmplace p.1 (f p.2) acc hp e]
    simp only [List.mem_cons, exists_eq_or_imp]
    tauto

theorem buildArgMap_sorted (cls : AstClause) :
    ((buildArgMap cls).map Prod.fst).Sorted (· < ·) :=
  foldl_mapEmplace_sorted (fun a => literalVariables (AstLiteral.atom a)) cls.getAtoms []
    List.sorted_nil

theorem mem_buildArgMap (cls : AstClause) (hnd : (cls.getAtoms.map Prod.fst).Nodup)
    (e : Nat × List CppString) :
    e ∈ buildArgMap cls ↔
      ∃ p ∈ cls.getAtoms, e = (p.1, literalVariables (AstLiteral.atom p.2)) := by
  have h := mem_foldl_mapEmplace (fun a => literalVariables (AstLiteral.atom a)) cls.getAtoms
    [] hnd (fun p _ => by simp) e
  simpa using h

/-! ## Edges between two literals -/

theorem joinLabels_append {V : Type} [DecidableEq V] (a b : V)
    (L1 L2 : List (V × V × CppString)) :
    joinLabels a b (L1 ++ L2) = joinLabels a b L1 ++ joinLabels a b L2 := by
  simp [joinLabels, List.filterMap_append]

theorem joinLabels_eq_nil {V : Type} [DecidableEq V] (a b : V) (L : List (V × V × CppString))
    (h : ∀ e ∈ L, ¬ ((e.1 = a ∧ e.2.1 = b) ∨ (e.1 = b ∧ e.2.1 = a))) :
    joinLabels a b L = [] := by
  induction L with
  | nil => rfl
  | cons e rest ih =>
    have he := h e (List.mem_cons_self _ _)
    simp only [joinLabels, List.filterMap_cons, he, if_false]
    exact ih (fun x hx => h x (List.mem_cons_of_mem _ hx))

theorem joinLabels_comm {V : Type} [DecidableEq V] (a b : V) (L : List (V × V × CppString)) :
    joinLabels a b L = joinLabels b a L := by
  induction L with
  | nil => rfl
  | cons e rest ih =>
    unfold joinLabels at ih ⊢
    simp only [List.filterMap_cons]
    by_cases h : (e.1 = a ∧ e.2.1 = b) ∨ (e.1 = b ∧ e.2.1 = a)
    · have h2 : (e.1 = b ∧ e.2.1 = a) ∨ (e.1 = a ∧ e.2.1 = b) := h.symm
      simp only [h, h2, if_true, ih]
    · have h2 : ¬ ((e.1 = b ∧ e.2.1 = a) ∨ (e.1 = a ∧ e.2.1 = b)) := fun x => h x.symm
      simp only [h, h2, if_false, ih]

theorem joinLabels_map_hit {V : Type} [DecidableEq V] (a b x y : V)
    (h : (x = a ∧ y = b) ∨ (x = b ∧ y = a)) (names : List CppString) :
    joinLabels a b (names.map (fun n => (x, y, n))) = names := by
  induction names with
  | nil => rfl
  | cons n rest ih =>
    unfold joinLabels at ih ⊢
    simp only [List.map_cons, List.filterMap_cons, h, if_true, ih]

theorem joinLabels_pairEdges_hit (p1 p2 : Nat × List CppString) (a b : Nat) (hab : a ≠ b)
    (h : (p1.1 = a ∧ p2.1 = b) ∨ (p1.1 = b ∧ p2.1 = a)) :
    joinLabels a b (pairEdges p1 p2) = set_intersection p1.2 p2.2 := by
  have hne : p1.1 ≠ p2.1 := by
    rcases h with ⟨h1, h2⟩ | ⟨h1, h2⟩
    · rw [h1, h2]; exact hab
    · rw [h1, h2]; exact hab.symm
  unfold pairEdges
  rw [if_neg hne]
  exact joinLabels_map_hit a b p1.1 p2.1 h _

theorem joinLabels_inner (a b : Nat) (sa sb : List CppString) (hab : a ≠ b)
    (rest : List (Nat × List CppString)) (hnd : (rest.map Prod.fst).Nodup)
    (hb : (b, sb) ∈ rest) (ha : a ∉ rest.map Prod.fst) :
    joinLabels a b (rest.flatMap (pairEdges (a, sa))) = set_intersection sa sb := by
  induction rest with
  | nil => cases hb
  | cons q rest ih =>
    rw [List.map_cons, List.nodup_cons] at hnd
    rw [List.flatMap_cons, joinLabels_append]
    have hqa : q.1 ≠ a := fun h => ha (by simp [h])
    rcases List.mem_cons.mp hb with hq | hb'
    · subst hq
      rw [joinLabels_pairEdges_hit (a, sa) (b, sb) a b hab (Or.inl ⟨rfl, rfl⟩),
        joinLabels_eq_nil a b (rest.flatMap (pairEdges (a, sa))), List.append_nil]
      intro e he
      obtain ⟨p2, hp2, hmem⟩ := List.mem_flatMap.mp he
      obtain ⟨h1, h2, _, _⟩ := (mem_pairEdges (a, sa) p2 e).mp hmem
      rintro (⟨_, h4⟩ | ⟨h3, _⟩)
      · exact hnd.1 (by rw [← h4, h2]; exact List.mem_map_of_mem _ hp2)
      · exact hab (h1.symm.trans h3)
    · have hqb : q.1 ≠ b := fun h => hnd.1 (h ▸ List.mem_map_of_mem Prod.fst hb')
      rw [joinLabels_eq_nil a b (pairEdges (a, sa) q), List.nil_append]
      · exact ih hnd.2 hb' (fun h => ha (List.mem_cons_of_mem _ h))
      · intro e he
        obtain ⟨h1, h2, _, _⟩ := (mem_pairEdges (a, sa) q e).mp he
        rintro (⟨_, h4⟩ | ⟨h3, _⟩)
        · exact hqb (h2.symm.trans h4)
        · exact hab (h1.symm.trans h3)

/-- The edges between two entries of `argMap` with different keys are named
by the intersection of their variable sets, taken in the order of the map. -/
theorem joinLabels_sharingEdges (a b : Nat) (sa sb : List CppString) (hab : a ≠ b)
    (argMap : List (Nat × List CppString)) (hnd : (argMap.map Prod.fst).Nodup)
    (ha : (a, sa) ∈ argMap) (hb : (b, sb) ∈ argMap) :
    joinLabels a b (sharingEdges argMap) = set_intersection sa sb ∨
      joinLabels a b (sharingEdges argMap) = set_intersection sb sa := by
  induction argMap with
  | nil => cases ha
  | cons p rest ih =>
    rw [List.map_cons, List.nodup_cons] at hnd
    rw [sharingEdges, joinLabels_append]
    have hout : ∀ x, x ∉ rest.map Prod.fst → ∀ y,
        joinLabels x y (sharingEdges rest) = [] := by
      intro x hx y
      apply joinLabels_eq_nil
      intro e he
      obtain ⟨h1, h2, _⟩ := sharingEdges_endpoints rest e he
      rintro (⟨h3, _⟩ | ⟨_, h4⟩)
      · exact hx (h3 ▸ h1)
      · exact hx (h4 ▸ h2)
    rcases List.mem_cons.mp ha with hpa | ha'
    · subst hpa
      have hb' : (b, sb) ∈ rest := by
        rcases List.mem_cons.mp hb with h | h
        · exact absurd (congrArg Prod.fst h).symm hab
        · exact h
      left
      rw [joinLabels_inner a b sa sb hab rest hnd.2 hb' hnd.1, hout a hnd.1 b,
        List.append_nil]
    · rcases List.mem_cons.mp hb with hpb | hb'
      · subst hpb
        right
        rw [joinLabels_comm a b (rest.flatMap _),
          joinLabels_inner b a sb sa hab.symm rest hnd.2 ha' hnd.1,
          joinLabels_comm a b, hout b hnd.1 a, List.append_nil]
      · have hpa : p.1 ≠ a := fun h => hnd.1 (h ▸ List.mem_map_of_mem Prod.fst ha')
        have hpb : p.1 ≠ b := fun h => hnd.1 (h ▸ List.mem_map_of_mem Prod.fst hb')
        rw [joinLabels_eq_nil a b (rest.flatMap (pairEdges p)), List.nil_append]
        · exact ih hnd.2 ha' hb'
        · intro e he
          obtain ⟨p2, _, hmem⟩ := List.mem_flatMap.mp he
          obtain ⟨h1, _, _, _⟩ := (mem_pairEdges p p2 e).mp hmem
          rintro (⟨h3, _⟩ | ⟨h3, _⟩)
          · exact hpa (h1.symm.trans h3)
          · exact hpb (h1.symm.trans h3)

theorem edgesJoining_of_namedEdges {V : Type} [DecidableEq V] (g : BoostGraph V)
    (L : List (V × V × CppString)) (h : namedEdges g = L.map namedEdge) (a b : V) :
    edgesJoining g a b = joinLabels a b L := by
  unfold edgesJoining joinLabels
  rw [h, List.filterMap_map]
  apply List.filterMap_congr
  intro e _
  simp only [Function.comp, namedEdge, Option.some.injEq]

theorem count_of_mem_nodup {α : Type} [BEq α] [LawfulBEq α] (a : α) (l : List α)
    (hn : l.Nodup) (hm : a ∈ l) : l.count a = 1 := by
  induction l with
  | nil => cases hm
  | cons b rest ih =>
    rw [List.nodup_cons] at hn
    rw [List.count_cons]
    rcases List.mem_cons.mp hm with rfl | hm'
    · have h0 : rest.count a = 0 := List.count_eq_zero.mpr hn.1
      simp [h0]
    · have hne : ¬ (b == a) = true := by
        intro h
        have : b = a := by simpa using h
        exact hn.1 (this ▸ hm')
      rw [ih hn.2 hm', if_neg hne]

/-- The edges between two distinct atoms of a clause whose nodes have
pairwise distinct addresses: their names are distinct and are the names in
both variable sets. -/
theorem edgesJoining_printAtomDeps (cls : AstClause) (a1 a2 : Nat) (atom1 atom2 : AstAtom)
    (hnd : (cls.getAtoms.map Prod.fst).Nodup)
    (h1 : (a1, atom1) ∈ cls.getAtoms) (h2 : (a2, atom2) ∈ cls.getAtoms) (hne : a1 ≠ a2) :
    (edgesJoining (printAtomDeps cls) a1 a2).Nodup ∧
    ∀ name, name ∈ edgesJoining (printAtomDeps cls) a1 a2 ↔
      name ∈ literalVariables (AstLiteral.atom atom1) ∧
        name ∈ literalVariables (AstLiteral.atom atom2) := by
  have hs1 := literalVariables_sorted (AstLiteral.atom atom1)
  have hs2 := literalVariables_sorted (AstLiteral.atom atom2)
  have hm1 : (a1, literalVariables (AstLiteral.atom atom1)) ∈ buildArgMap cls :=
    (mem_buildArgMap cls hnd _).mpr ⟨(a1, atom1), h1, rfl⟩
  have hm2 : (a2, literalVariables (AstLiteral.atom atom2)) ∈ buildArgMap cls :=
    (mem_buildArgMap cls hnd _).mpr ⟨(a2, atom2), h2, rfl⟩
  rw [edgesJoining_of_namedEdges _ _ (printAtomDeps_extends cls).1]
  rcases joinLabels_sharingEdges a1 a2 _ _ hne (buildArgMap cls)
    (List.Sorted.nodup (buildArgMap_sorted cls)) hm1 hm2 with h | h
  · rw [h]
    exact ⟨set_intersection_nodup _ _ hs1 hs2, fun name => mem_set_intersection _ _ hs1 hs2 name⟩
  · rw [h]
    refine ⟨set_intersection_nodup _ _ hs2 hs1, fun name => ?_⟩
    rw [mem_set_intersection _ _ hs2 hs1 name, and_comm]

/-- C3: for two distinct atoms of a clause (the nodes of the clause having
pairwise distinct addresses) and every variable name, the number of edges of
the graph built by `printAtomDeps` that join the two atoms under that name is 1
when the name is in the variable sets of both and 0 otherwise; so the number
of edges between the two is the size of the intersection of their variable
sets.  For `p(x,y), q(y,z)` the graph has one edge, named `y`; for
`p(x,y), q(y,z), r(z,x)` it has exactly three edges, named `y`, `x` and `z`,
one between each pair. -/
theorem printAtomDeps_edges_between (cls : AstClause) (a1 a2 : Nat) (atom1 atom2 : AstAtom)
    (hnd : (cls.getAtoms.map Prod.fst).Nodup)
    (h1 : (a1, atom1) ∈ cls.getAtoms) (h2 : (a2, atom2) ∈ cls.getAtoms) (hne : a1 ≠ a2) :
    (∀ name, (edgesJoining (printAtomDeps cls) a1 a2).count name =
      if name ∈ literalVariables (AstLiteral.atom atom1) ∧
          name ∈ literalVariables (AstLiteral.atom atom2) then 1 else 0) ∧
    (edgesJoining (printAtomDeps cls) a1 a2).length =
      ((literalVariables (AstLiteral.atom atom1)).toFinset ∩
        (literalVariables (AstLiteral.atom atom2)).toFinset).card ∧
    namedEdges (printAtomDeps
        (clauseOf [mkAtom "p" [mkVar "x", mkVar "y"], mkAtom "q" [mkVar "y", mkVar "z"]])) =
      [(some 4096, some 4104, ['y'])] ∧
    namedEdges (printAtomDeps
        (clauseOf [mkAtom "p" [mkVar "x", mkVar "y"], mkAtom "q" [mkVar "y", mkVar "z"],
          mkAtom "r" [mkVar "z", mkVar "x"]])) =
      [(some 4096, some 4104, ['y']), (some 4096, some 4112, ['x']),
        (some 4104, some 4112, ['z'])] := by
  obtain ⟨hnodup, hmem⟩ := edgesJoining_printAtomDeps cls a1 a2 atom1 atom2 hnd h1 h2 hne
  refine ⟨fun name => ?_, ?_, by decide, by decide⟩
  · by_cases h : name ∈ edgesJoining (printAtomDeps cls) a1 a2
    · rw [count_of_mem_nodup name _ hnodup h, if_pos ((hmem name).mp h)]
    · rw [List.count_eq_zero.mpr h, if_neg (fun hc => h ((hmem name).mpr hc))]
  · rw [← List.toFinset_card_of_nodup hnodup]
    congr 1
    ext name
    simp only [List.mem_toFinset, Finset.mem_inter]
    exact hmem name

/-- C3, on the clause `p(x,y), q(y,x,z)`: the two atoms share `x` and `y`, and
are joined by one edge named `x` and no edge named `z`. -/
theorem printAtomDeps_edges_between_witness :
    (edgesJoining (printAtomDeps
        (clauseOf [mkAtom "p" [mkVar "x", mkVar "y"],
          mkAtom "q" [mkVar "y", mkVar "x", mkVar "z"]])) 4096 4104).count ['x'] = 1 ∧
    (edgesJoining (printAtomDeps
        (clauseOf [mkAtom "p" [mkVar "x", mkVar "y"],
          mkAtom "q" [mkVar "y", mkVar "x", mkVar "z"]])) 4096 4104).count ['z'] = 0 ∧
    (edgesJoining (printAtomDeps
        (clauseOf [mkAtom "p" [mkVar "x", mkVar "y"],
          mkAtom "q" [mkVar "y", mkVar "x", mkVar "z"]])) 4096 4104).length = 2 := by
  have h := printAtomDeps_edges_between
    (clauseOf [mkAtom "p" [mkVar "x", mkVar "y"], mkAtom "q" [mkVar "y", mkVar "x", mkVar "z"]])
    4096 4104 (mkAtom "p" [mkVar "x", mkVar "y"]) (mkAtom "q" [mkVar "y", mkVar "x", mkVar "z"])
    (by decide) (by simp [clauseOf, AstClause.getAtoms, List.enum, List.enumFrom])
    (by simp [clauseOf, AstClause.getAtoms, List.enum, List.enumFrom]) (by decide)
  refine ⟨?_, ?_, ?_⟩
  · rw [h.1 ['x']]; decide
  · rw [h.1 ['z']]; decide
  · rw [h.2.1]; decide

/-- C5: no edge of the graph built by `printAtomDeps` has identical end
points, neither as vertex descriptors nor as the literals they denote: a
literal is never connected to itself. -/
theorem printAtomDeps_no_selfLoop (cls : AstClause) :
    (∀ e ∈ (printAtomDeps cls).edges, e.1 ≠ e.2.1) ∧
    (∀ e ∈ namedEdges (printAtomDeps cls), e.1 ≠ e.2.1) := by
  obtain ⟨hedges, hnodup, _, hbound⟩ := printAtomDeps_extends cls
  have hnamed : ∀ e ∈ namedEdges (printAtomDeps cls), e.1 ≠ e.2.1 := by
    intro n hn heq
    rw [hedges] at hn
    obtain ⟨e, he, rfl⟩ := List.mem_map.mp hn
    simp only [namedEdge, Option.some.injEq] at heq
    exact (sharingEdges_endpoints _ e he).2.2 heq
  refine ⟨fun e he heq => ?_, hnamed⟩
  obtain ⟨n, hn, hnn⟩ := (selfLoop_iff_named _ hnodup hbound).mp ⟨e, he, heq⟩
  exact hnamed n hn hnn

/-- C5, on the clause `p(x,y), q(y,z), r(z,x)`: the edge named `y` joins two
different vertices. -/
theorem printAtomDeps_no_selfLoop_witness :
    ((0 : Nat), (1 : Nat), ['y']) ∈ (printAtomDeps
        (clauseOf [mkAtom "p" [mkVar "x", mkVar "y"], mkAtom "q" [mkVar "y", mkVar "z"],
          mkAtom "r" [mkVar "z", mkVar "x"]])).edges ∧
    ((0 : Nat), (1 : Nat), ['y']).1 ≠ ((0 : Nat), (1 : Nat), ['y']).2.1 :=
  ⟨by decide,
    (printAtomDeps_no_selfLoop
      (clauseOf [mkAtom "p" [mkVar "x", mkVar "y"], mkAtom "q" [mkVar "y", mkVar "z"],
        mkAtom "r" [mkVar "z", mkVar "x"]])).1 (0, 1, ['y']) (by decide)⟩

/-! ## The reading loop -/

theorem takeWhile_ne_append (d : Char) (pre post : List Char) (h : d ∉ pre) :
    (pre ++ d :: post).takeWhile (fun c => c != d) = pre := by
  induction pre with
  | nil => simp
  | cons c cs ih =>
    have hc : c ≠ d := fun e => h (by simp [e])
    have hcs : d ∉ cs := fun e => h (List.mem_cons_of_mem _ e)
    simp [List.takeWhile_cons, hc, ih hcs]

theorem dropWhile_ne_append (d : Char) (pre post : List Char) (h : d ∉ pre) :
    (pre ++ d :: post).dropWhile (fun c => c != d) = d :: post := by
  induction pre with
  | nil => simp
  | cons c cs ih =>
    have hc : c ≠ d := fun e => h (by simp [e])
    have hcs : d ∉ cs := fun e => h (List.mem_cons_of_mem _ e)
    simp [List.dropWhile_cons, hc, ih hcs]

theorem scanPattern_tab (s : CppString) : scanPattern ('\t' :: s) = scanPattern s := by
  unfold scanPattern
  rw [List.foldl_cons, scanStep_of_not_position _ _ (by decide)]

/-- One iteration of the loop on a well-formed line. -/
theorem readLoop_line (fuel : Nat) (l : CppString × CppString) (hwf : WellFormedLine l)
    (rest : List Char) (relMap : List (CppString × FunctionalRelationDesc)) :
    readLoop (fuel + 1) ⟨l.1 ++ '\t' :: (l.2 ++ '\n' :: rest), false, false⟩ relMap =
      readLoop fuel ⟨rest, false, false⟩ (multimapEmplace l.1 (scanPattern l.2) relMap) := by
  obtain ⟨hne, htab, _, hnl⟩ := hwf
  have hnl2 : '\n' ∉ '\t' :: l.2 := by
    intro h
    rcases List.mem_cons.mp h with h | h
    · exact absurd h (by decide)
    · exact hnl h
  have hempty : l.1.isEmpty = false := by
    cases h : l.1 with
    | nil => exact absurd h hne
    | cons c cs => rfl
  have hget1 : (IfStream.get ⟨l.1 ++ '\t' :: (l.2 ++ '\n' :: rest), false, false⟩ '\t') =
      (l.1, ⟨'\t' :: (l.2 ++ '\n' :: rest), false, false⟩) := by
    simp [IfStream.get, takeWhile_ne_append '\t' l.1 _ htab,
      dropWhile_ne_append '\t' l.1 _ htab, hempty]
  have hget2 : (IfStream.get ⟨'\t' :: (l.2 ++ '\n' :: rest), false, false⟩ '\n') =
      ('\t' :: l.2, ⟨'\n' :: rest, false, false⟩) := by
    have e : '\t' :: (l.2 ++ '\n' :: rest) = ('\t' :: l.2) ++ '\n' :: rest := rfl
    rw [e]
    simp only [IfStream.get, Bool.or_self, Bool.false_eq_true, if_false,
      takeWhile_ne_append '\n' ('\t' :: l.2) _ hnl2,
      dropWhile_ne_append '\n' ('\t' :: l.2) _ hnl2]
    rfl
  rw [readLoop]
  simp only [Bool.false_eq_true, if_false, hget1, hne, hget2, scanPattern_tab]
  rfl

/-- The loop at the end of the file: one iteration meets the end, the next
test of `eof()` leaves the loop. -/
theorem readLoop_end (fuel : Nat) (relMap : List (CppString × FunctionalRelationDesc)) :
    readLoop (fuel + 2) ⟨[], false, false⟩ relMap = some relMap := by
  rw [readLoop]
  simp [IfStream.get, readLoop]

theorem readLoop_lines (lines : List (CppString × CppString))
    (hwf : ∀ l ∈ lines, WellFormedLine l) :
    ∀ (fuel : Nat) (relMap : List (CppString × FunctionalRelationDesc)),
      readLoop (lines.length + 2 + fuel) ⟨descriptorFile lines, false, false⟩ relMap =
        some (lines.foldl (fun m l => multimapEmplace l.1 (scanPattern l.2) m) relMap) := by
  induction lines with
  | nil =>
    intro fuel relMap
    have e : ([] : List (CppString × CppString)).length + 2 + fuel = fuel + 2 := by
      simp; omega
    rw [e, descriptorFile, readLoop_end]
    rfl
  | cons l rest ih =>
    intro fuel relMap
    have e : (l :: rest).length + 2 + fuel = (rest.length + 2 + fuel) + 1 := by
      simp; omega
    rw [e, descriptorFile, readLoop_line _ l (hwf l (List.mem_cons_self _ _)),
      ih (fun x hx => hwf x (List.mem_cons_of_mem _ hx)), List.foldl_cons]

theorem multimapEmplace_perm {κ β : Type} [LinearOrder κ] (k : κ) (v : β) (m : List (κ × β)) :
    (multimapEmplace k v m).Perm ((k, v) :: m) := by
  induction m with
  | nil => exact List.Perm.refl _
  | cons e es ih =>
    unfold multimapEmplace
    by_cases h : k < e.1
    · rw [if_pos h]
    · rw [if_neg h]
      exact (List.Perm.cons e ih).trans (List.Perm.swap _ _ _)

theorem foldl_multimapEmplace_perm (lines : List (CppString × CppString)) :
    ∀ relMap : List (CppString × FunctionalRelationDesc),
      (lines.foldl (fun m l => multimapEmplace l.1 (scanPattern l.2) m) relMap).Perm
        (lines.map (fun l => (l.1, scanPattern l.2)) ++ relMap) := by
  induction lines with
  | nil => intro relMap; exact List.Perm.refl _
  | cons l rest ih =>
    intro relMap
    rw [List.foldl_cons, List.map_cons, List.cons_append]
    refine (ih _).trans ?_
    refine (List.Perm.append_left _ (multimapEmplace_perm l.1 (scanPattern l.2) relMap)).trans ?_
    exact List.perm_middle

/-- The mapping read from a file of well-formed lines. -/
theorem readFuncRelInfo_of_lines (lines : List (CppString × CppString))
    (hwf : ∀ l ∈ lines, WellFormedLine l) (fuel : Nat) (hfuel : lines.length + 2 ≤ fuel) :
    ∃ m, readFuncRelInfo fuel (some (descriptorFile lines)) = some m ∧
      m.Perm (lines.map (fun l => (l.1, scanPattern l.2))) := by
  obtain ⟨k, rfl⟩ := Nat.exists_eq_add_of_le hfuel
  refine ⟨_, readLoop_lines lines hwf k [], ?_⟩
  simpa using foldl_multimapEmplace_perm lines []

theorem readLoop_failed (fuel : Nat) :
    ∀ (rest : List Char) (relMap : List (CppString × FunctionalRelationDesc)),
      readLoop fuel ⟨rest, true, false⟩ relMap = none := by
  induction fuel with
  | zero => intro rest relMap; rfl
  | succ n ih =>
    intro rest relMap
    rw [readLoop]
    simp [IfStream.get, ih]

/-- C7: for a descriptor file made of `n` well-formed lines
`name<TAB>pattern<NEWLINE>`, `readFuncRelInfo` returns (after `n + 2` tests of
its loop condition) a mapping that holds exactly `n` entries, one per line:
the descriptor of the pattern of the line under the name of the line.  The
entries under one name are the descriptors of all the lines with that name,
so that lines with the same relation name neither overwrite one another nor
are merged. -/
theorem readFuncRelInfo_lines (lines : List (CppString × CppString))
    (hwf : ∀ l ∈ lines, WellFormedLine l) (fuel : Nat) (hfuel : lines.length + 2 ≤ fuel) :
    ∃ m, readFuncRelInfo fuel (some (descriptorFile lines)) = some m ∧
      m.Perm (lines.map (fun l => (l.1, scanPattern l.2))) ∧
      m.length = lines.length ∧
      ∀ name, (equal_range m name).Perm
        ((lines.filter (fun l => decide (l.1 = name))).map (fun l => scanPattern l.2)) := by
  obtain ⟨m, hm, hperm⟩ := readFuncRelInfo_of_lines lines hwf fuel hfuel
  refine ⟨m, hm, hperm, by simpa using hperm.length_eq, fun name => ?_⟩
  unfold equal_range
  refine ((hperm.filter _).map _).trans ?_
  rw [List.filter_map, List.map_map]
  exact List.Perm.refl _

/-- C7, on the file of the two lines `r<TAB>STX` and `r<TAB>SSXT`: both
descriptors are stored under `r`. -/
theorem readFuncRelInfo_lines_witness :
    ∃ m, readFuncRelInfo 4 (some "r\tSTX\nr\tSSXT\n".toList) = some m ∧
      m.Perm [(['r'], ⟨[0], 1⟩), (['r'], ⟨[0, 1], 3⟩)] ∧
      m.length = 2 ∧
      ∀ name, (equal_range m name).Perm
        (([("r".toList, "STX".toList), ("r".toList, "SSXT".toList)].filter
          (fun l => decide (l.1 = name))).map (fun l => scanPattern l.2)) :=
  readFuncRelInfo_lines [("r".toList, "STX".toList), ("r".toList, "SSXT".toList)]
    (by unfold WellFormedLine; decide) 4 (by decide)

/-- C6, refuted as stated: the line `r<TAB>XX`, whose pattern sets neither a
source nor a target position, contributes the descriptor with no source
position and target position 0; the line `r<TAB>SX` (no `T`) and the line
`r<TAB>XT` (no `S`) contribute a descriptor each as well. -/
theorem readFuncRelInfo_degenerate_counterexample :
    readFuncRelInfo 3 (some "r\tXX\n".toList) = some [(['r'], ⟨[], 0⟩)] ∧
    readFuncRelInfo 3 (some "r\tSX\n".toList) = some [(['r'], ⟨[0], 0⟩)] ∧
    readFuncRelInfo 3 (some "r\tXT\n".toList) = some [(['r'], ⟨[], 1⟩)] := by
  decide

/-- C6, amended: in a descriptor file of well-formed lines, a line whose
pattern string holds no `T` or no `S` contributes a descriptor like every
other line: the mapping returned by `readFuncRelInfo` has the entry of that
line under its name, with target position 0 when the pattern holds no `T`
and with no source position when the pattern holds no `S`. -/
theorem readFuncRelInfo_degenerate_line (lines : List (CppString × CppString))
    (hwf : ∀ l ∈ lines, WellFormedLine l) (fuel : Nat) (hfuel : lines.length + 2 ≤ fuel)
    (l : CppString × CppString) (hl : l ∈ lines) :
    ∃ m, readFuncRelInfo fuel (some (descriptorFile lines)) = some m ∧
      (l.1, scanPattern l.2) ∈ m ∧
      ('T' ∉ l.2 → (scanPattern l.2).second = 0) ∧
      ('S' ∉ l.2 → (scanPattern l.2).first = []) := by
  obtain ⟨m, hm, hperm⟩ := readFuncRelInfo_of_lines lines hwf fuel hfuel
  refine ⟨m, hm, ?_, scanPattern_no_T l.2, scanPattern_no_S l.2⟩
  exact hperm.mem_iff.mpr (List.mem_map.mpr ⟨l, hl, rfl⟩)

/-- C6, amended, on the file of the two lines `r<TAB>STX` and `q<TAB>XX`: the
second line contributes its descriptor under `q`. -/
theorem readFuncRelInfo_degenerate_line_witness :
    ∃ m, readFuncRelInfo 4 (some "r\tSTX\nq\tXX\n".toList) = some m ∧
      ((['q'], ⟨[], 0⟩) : CppString × FunctionalRelationDesc) ∈ m := by
  obtain ⟨m, hm, hmem, _, _⟩ := readFuncRelInfo_degenerate_line
    [("r".toList, "STX".toList), ("q".toList, "XX".toList)]
    (by unfold WellFormedLine; decide) 4 (by decide) ("q".toList, "XX".toList) (by decide)
  exact ⟨m, hm, hmem⟩

/-- C8: on a descriptor file that cannot be opened the stream starts with
`failbit` set and `eofbit` clear, every extraction fails without setting
`eofbit`, and the loop `while (!csvFile.eof())` never ends: for every bound on
the number of iterations `readFuncRelInfo` has not returned, so it does not
return the empty mapping.  An empty file that can be opened does give the
empty mapping. -/
theorem readFuncRelInfo_missing_file (fuel : Nat) :
    readFuncRelInfo fuel none = none ∧
    readFuncRelInfo (fuel + 2) (some []) = some [] := by
  refine ⟨readLoop_failed fuel [] [], ?_⟩
  exact readLoop_end fuel []

/-! ## The variable collector -/

mutual
theorem mem_collectVariableNames :
    ∀ (arg : AstArgument) (vars : List CppString) (x : CppString),
      x ∈ collectVariableNames arg vars ↔ x ∈ vars ∨ x ∈ variableLeaves arg
  | AstArgument.var name, vars, x => by
    rw [collectVariableNames, variableLeaves, mem_setInsert, List.mem_singleton]
    exact or_comm
  | AstArgument.compound children, vars, x => by
    rw [collectVariableNames, variableLeaves]
    exact mem_collectChildNodes children vars x
theorem mem_collectChildNodes :
    ∀ (children : List AstArgument) (vars : List CppString) (x : CppString),
      x ∈ collectChildNodes children vars ↔ x ∈ vars ∨ x ∈ childVariableLeaves children
  | [], vars, x => by
    rw [collectChildNodes, childVariableLeaves]
    simp
  | child :: rest, vars, x => by
    rw [collectChildNodes, childVariableLeaves, mem_collectChildNodes rest,
      mem_collectVariableNames child, List.mem_append, or_assoc]
end

theorem mem_childVariableLeaves (children : List AstArgument) (x : CppString) :
    x ∈ childVariableLeaves children ↔ ∃ child ∈ children, x ∈ variableLeaves child := by
  induction children with
  | nil => simp [childVariableLeaves]
  | cons c cs ih =>
    rw [childVariableLeaves, List.mem_append, ih]
    simp

/-- Two sets with the same members are the same set. -/
theorem sorted_ext {α : Type} [LinearOrder α] (l1 l2 : List α)
    (h1 : l1.Sorted (· < ·)) (h2 : l2.Sorted (· < ·)) (h : ∀ x, x ∈ l1 ↔ x ∈ l2) :
    l1 = l2 :=
  List.eq_of_perm_of_sorted ((List.perm_ext_iff_of_nodup h1.nodup h2.nodup).mpr h) h1 h2

/-- C11: `collectVariableNames` is defined on every argument tree (the
recursion is structural), and it leaves the set of names equal to the initial
set united with exactly the names of the variable leaves of the tree, a
variable contributing its own name and any other argument the contributions
of its argument children.  On a set of names (a list in strictly ascending
order) the result is again a set, and it does not depend on the order in
which children are visited: trees with the same variable leaves, in
particular trees whose children are permuted, give the same result. -/
theorem collectVariableNames_spec (arg : AstArgument) (vars : List CppString) :
    (∀ x, x ∈ collectVariableNames arg vars ↔ x ∈ vars ∨ x ∈ variableLeaves arg) ∧
    (∀ name, variableLeaves (AstArgument.var name) = [name]) ∧
    (∀ children x, x ∈ variableLeaves (AstArgument.compound children) ↔
      ∃ child ∈ children, x ∈ variableLeaves child) ∧
    (vars.Sorted (· < ·) → (collectVariableNames arg vars).Sorted (· < ·)) ∧
    (∀ arg1, vars.Sorted (· < ·) →
      (∀ x, x ∈ variableLeaves arg ↔ x ∈ variableLeaves arg1) →
      collectVariableNames arg vars = collectVariableNames arg1 vars) ∧
    (∀ children children1, vars.Sorted (· < ·) → children.Perm children1 →
      collectVariableNames (AstArgument.compound children) vars =
        collectVariableNames (AstArgument.compound children1) vars) := by
  have hext : ∀ a1 a2 : AstArgument, vars.Sorted (· < ·) →
      (∀ x, x ∈ variableLeaves a1 ↔ x ∈ variableLeaves a2) →
      collectVariableNames a1 vars = collectVariableNames a2 vars := by
    intro a1 a2 hs h
    apply sorted_ext _ _ (collectVariableNames_sorted a1 vars hs)
      (collectVariableNames_sorted a2 vars hs)
    intro x
    rw [mem_collectVariableNames, mem_collectVariableNames, h x]
  refine ⟨mem_collectVariableNames arg vars, fun name => by rw [variableLeaves],
    fun children x => by rw [variableLeaves]; exact mem_childVariableLeaves children x,
    collectVariableNames_sorted arg vars, fun arg1 hs h => hext arg arg1 hs h,
    fun children children1 hs hp => ?_⟩
  apply hext _ _ hs
  intro x
  rw [variableLeaves, variableLeaves, mem_childVariableLeaves, mem_childVariableLeaves]
  constructor
  · rintro ⟨c, hc, hx⟩
    exact ⟨c, hp.mem_iff.mp hc, hx⟩
  · rintro ⟨c, hc, hx⟩
    exact ⟨c, hp.mem_iff.mpr hc, hx⟩

/-- C11, on the tree `g(y, h(x), y)` and the set `{x, z}`: the result is
`{x, y, z}`, and it is the same when the children are visited in the order
`h(x), y, y`. -/
theorem collectVariableNames_spec_witness :
    collectVariableNames
        (AstArgument.compound [mkVar "y", AstArgument.compound [mkVar "x"], mkVar "y"])
        [['x'], ['z']] = [['x'], ['y'], ['z']] ∧
    collectVariableNames
        (AstArgument.compound [mkVar "y", AstArgument.compound [mkVar "x"], mkVar "y"])
        [['x'], ['z']] =
      collectVariableNames
        (AstArgument.compound [AstArgument.compound [mkVar "x"], mkVar "y", mkVar "y"])
        [['x'], ['z']] :=
  ⟨by decide,
    (collectVariableNames_spec
      (AstArgument.compound [mkVar "y", AstArgument.compound [mkVar "x"], mkVar "y"])
      [['x'], ['z']]).2.2.2.2.2
      [mkVar "y", AstArgument.compound [mkVar "x"], mkVar "y"]
      [AstArgument.compound [mkVar "x"], mkVar "y", mkVar "y"]
      (by decide) (List.Perm.swap _ _ _)⟩

/-! ## The vertices of the sharing graph -/

theorem setIntersectionLoop_self {α : Type} [LinearOrder α] (xs : List α) :
    ∀ n, xs.length ≤ n → setIntersectionLoop n xs xs = xs := by
  induction xs with
  | nil =>
    intro n _
    cases n <;> rfl
  | cons x xs ih =>
    intro n hn
    cases n with
    | zero => simp at hn
    | succ n =>
      simp only [List.length_cons] at hn
      simp only [setIntersectionLoop, lt_irrefl, if_false]
      rw [ih n (by omega)]

theorem set_intersection_self {α : Type} [LinearOrder α] (xs : List α) :
    set_intersection xs xs = xs :=
  setIntersectionLoop_self xs _ (by omega)

theorem exists_of_joinLabels_mem {V : Type} [DecidableEq V] (a b : V)
    (L : List (V × V × CppString)) (name : CppString) (h : name ∈ joinLabels a b L) :
    ∃ e ∈ L, ((e.1 = a ∧ e.2.1 = b) ∨ (e.1 = b ∧ e.2.1 = a)) ∧ e.2.2 = name := by
  unfold joinLabels at h
  obtain ⟨e, he, hf⟩ := List.mem_filterMap.mp h
  by_cases hc : (e.1 = a ∧ e.2.1 = b) ∨ (e.1 = b ∧ e.2.1 = a)
  · rw [if_pos hc] at hf
    exact ⟨e, he, hc, Option.some.inj hf⟩
  · rw [if_neg hc] at hf
    cases hf

/-- Every edge of the comprehension comes from two entries with different
keys and is named by a member of the intersection of their sets. -/
theorem mem_sharingEdges (argMap : List (Nat × List CppString))
    (e : Nat × Nat × CppString) (he : e ∈ sharingEdges argMap) :
    ∃ p1 ∈ argMap, ∃ p2 ∈ argMap, e.1 = p1.1 ∧ e.2.1 = p2.1 ∧ p1.1 ≠ p2.1 ∧
      e.2.2 ∈ set_intersection p1.2 p2.2 := by
  induction argMap with
  | nil => simp [sharingEdges] at he
  | cons p rest ih =>
    rw [sharingEdges, List.mem_append] at he
    rcases he with he | he
    · obtain ⟨p2, hp2, hmem⟩ := List.mem_flatMap.mp he
      obtain ⟨h1, h2, h3, h4⟩ := (mem_pairEdges p p2 e).mp hmem
      exact ⟨p, List.mem_cons_self _ _, p2, List.mem_cons_of_mem _ hp2, h1, h2, h3, h4⟩
    · obtain ⟨p1, hp1, p2, hp2, h⟩ := ih he
      exact ⟨p1, List.mem_cons_of_mem _ hp1, p2, List.mem_cons_of_mem _ hp2, h⟩

/-- The vertices of the graph built by `printAtomDeps`, for a clause whose
nodes have pairwise distinct addresses: the atoms that have a variable in
common with another atom of the clause. -/
theorem mem_printAtomDeps_vertices (cls : AstClause)
    (hnd : (cls.getAtoms.map Prod.fst).Nodup) (x : Nat) :
    x ∈ (printAtomDeps cls).vertices ↔
      ∃ a, (x, a) ∈ cls.getAtoms ∧ ∃ y b, (y, b) ∈ cls.getAtoms ∧ y ≠ x ∧
        ∃ name, name ∈ literalVariables (AstLiteral.atom a) ∧
          name ∈ literalVariables (AstLiteral.atom b) := by
  rw [(printAtomDeps_extends cls).2.2.1 x]
  constructor
  · rintro ⟨e, he, hx⟩
    obtain ⟨p1, hp1, p2, hp2, h1, h2, h3, h4⟩ := mem_sharingEdges _ e he
    obtain ⟨q1, hq1, rfl⟩ := (mem_buildArgMap cls hnd p1).mp hp1
    obtain ⟨q2, hq2, rfl⟩ := (mem_buildArgMap cls hnd p2).mp hp2
    have hm := (mem_set_intersection (literalVariables (AstLiteral.atom q1.2))
      (literalVariables (AstLiteral.atom q2.2)) (literalVariables_sorted _)
      (literalVariables_sorted _) e.2.2).mp h4
    simp only at h1 h2 h3
    rcases hx with hx | hx
    · refine ⟨q1.2, ?_, q2.1, q2.2, hq2, ?_, e.2.2, hm.1, hm.2⟩
      · rw [hx, h1]; exact hq1
      · rw [hx, h1]; exact fun h => h3 h.symm
    · refine ⟨q2.2, ?_, q1.1, q1.2, hq1, ?_, e.2.2, hm.2, hm.1⟩
      · rw [hx, h2]; exact hq2
      · rw [hx, h2]; exact h3
  · rintro ⟨a, ha, y, b, hb, hne, name, hn1, hn2⟩
    have hm1 : (x, literalVariables (AstLiteral.atom a)) ∈ buildArgMap cls :=
      (mem_buildArgMap cls hnd _).mpr ⟨(x, a), ha, rfl⟩
    have hm2 : (y, literalVariables (AstLiteral.atom b)) ∈ buildArgMap cls :=
      (mem_buildArgMap cls hnd _).mpr ⟨(y, b), hb, rfl⟩
    have hmem : name ∈ joinLabels x y (sharingEdges (buildArgMap cls)) := by
      rcases joinLabels_sharingEdges x y _ _ (fun h => hne h.symm) (buildArgMap cls)
        (List.Sorted.nodup (buildArgMap_sorted cls)) hm1 hm2 with h | h
      · rw [h]
        exact (mem_set_intersection _ _ (literalVariables_sorted _)
          (literalVariables_sorted _) name).mpr ⟨hn1, hn2⟩
      · rw [h]
        exact (mem_set_intersection _ _ (literalVariables_sorted _)
          (literalVariables_sorted _) name).mpr ⟨hn2, hn1⟩
    obtain ⟨e, he, hc, _⟩ := exists_of_joinLabels_mem x y _ name hmem
    refine ⟨e, he, ?_⟩
    rcases hc with ⟨h1, _⟩ | ⟨_, h2⟩
    · exact Or.inl h1.symm
    · exact Or.inr h2.symm

/-- Every vertex of the graph built by `printAtomDeps` has an incident edge. -/
theorem printAtomDeps_incident (cls : AstClause) (i : Nat)
    (hi : i < (printAtomDeps cls).num_vertices) :
    ∃ e ∈ (printAtomDeps cls).edges, e.1 = i ∨ e.2.1 = i := by
  obtain ⟨hedges, hnodup, hverts, hbound⟩ := printAtomDeps_extends cls
  unfold BoostGraph.num_vertices at hi
  have hx : (printAtomDeps cls).vertices[i] ∈ (printAtomDeps cls).vertices :=
    List.getElem_mem _
  obtain ⟨e1, he1, hend⟩ := (hverts _).mp hx
  have hn : namedEdge e1 ∈ namedEdges (printAtomDeps cls) := by
    rw [hedges]
    exact List.mem_map_of_mem _ he1
  unfold namedEdges at hn
  obtain ⟨e, he, heq⟩ := List.mem_map.mp hn
  simp only [namedEdge, Prod.mk.injEq] at heq
  obtain ⟨h1, h2, _⟩ := heq
  obtain ⟨hb1, hb2⟩ := hbound e he
  refine ⟨e, he, ?_⟩
  rcases hend with hend | hend
  · left
    rw [List.getElem?_eq_getElem hb1, Option.some.injEq, ← hend] at h1
    exact (List.Nodup.getElem_inj_iff hnodup).mp h1
  · right
    rw [List.getElem?_eq_getElem hb2, Option.some.injEq, ← hend] at h2
    exact (List.Nodup.getElem_inj_iff hnodup).mp h2

theorem getAtoms_filter_atoms (body : List (Nat × AstLiteral)) (head : AstAtom) :
    AstClause.getAtoms ⟨head, body.filter (fun l =>
        match l.2 with
        | AstLiteral.atom _ => true
        | AstLiteral.binaryConstraint _ _ => false)⟩ =
      AstClause.getAtoms ⟨head, body⟩ := by
  unfold AstClause.getAtoms
  simp only
  induction body with
  | nil => rfl
  | cons l rest ih =>
    obtain ⟨addr, lit⟩ := l
    cases lit with
    | atom a => simp [List.filter_cons, List.filterMap_cons, ih]
    | binaryConstraint lhs rhs => simp [List.filter_cons, List.filterMap_cons, ih]

/-- C12: the variable set that `printAtomDeps` computes for a binary
constraint is the union of the variables of its two arguments, but the loop
runs over `cls.getAtoms()`, which holds no constraint: the graph of a clause
is the graph of the clause with its constraints removed.  On the body
`p(x), x = y` the constraint shares `x` with the atom and the graph has
neither a vertex nor an edge. -/
theorem printAtomDeps_without_constraints (cls : AstClause) :
    (∀ lhs rhs x, x ∈ literalVariables (AstLiteral.binaryConstraint lhs rhs) ↔
      x ∈ variableLeaves lhs ∨ x ∈ variableLeaves rhs) ∧
    printAtomDeps cls =
      printAtomDeps ⟨cls.head, cls.body.filter (fun l =>
        match l.2 with
        | AstLiteral.atom _ => true
        | AstLiteral.binaryConstraint _ _ => false)⟩ ∧
    printAtomDeps (clauseOfLiterals
        [AstLiteral.atom (mkAtom "p" [mkVar "x"]),
          AstLiteral.binaryConstraint (mkVar "x") (mkVar "y")]) = ⟨[], []⟩ := by
  refine ⟨fun lhs rhs x => ?_, ?_, by decide⟩
  · rw [literalVariables, mem_collectVariableNames, mem_collectVariableNames]
    simp
  · unfold printAtomDeps buildArgMap
    rw [getAtoms_filter_atoms]

/-- C13: two atoms of a clause that are the same atom at two different node
addresses, and that mention a variable, are two different vertices of the
graph built by `printAtomDeps` (the nodes of the clause having pairwise
distinct addresses), and the edges that join them are named by the variables
of the atom, one edge per variable.  The body `p(x), p(x)` gives two vertices
and one edge named `x`. -/
theorem printAtomDeps_identical_atoms (cls : AstClause) (a1 a2 : Nat) (atom : AstAtom)
    (hnd : (cls.getAtoms.map Prod.fst).Nodup)
    (h1 : (a1, atom) ∈ cls.getAtoms) (h2 : (a2, atom) ∈ cls.getAtoms) (hne : a1 ≠ a2)
    (hvar : literalVariables (AstLiteral.atom atom) ≠ []) :
    (∃ i j : Nat, i ≠ j ∧ (printAtomDeps cls).vertices[i]? = some a1 ∧
      (printAtomDeps cls).vertices[j]? = some a2) ∧
    edgesJoining (printAtomDeps cls) a1 a2 = literalVariables (AstLiteral.atom atom) ∧
    (literalVariables (AstLiteral.atom atom)).Nodup ∧
    (∀ x, x ∈ literalVariables (AstLiteral.atom atom) ↔
      x ∈ childVariableLeaves atom.arguments) ∧
    printAtomDeps (clauseOf [mkAtom "p" [mkVar "x"], mkAtom "p" [mkVar "x"]]) =
      ⟨[4096, 4104], [(0, 1, ['x'])]⟩ := by
  obtain ⟨name, hname⟩ := List.exists_mem_of_ne_nil _ hvar
  have hv1 : a1 ∈ (printAtomDeps cls).vertices :=
    (mem_printAtomDeps_vertices cls hnd a1).mpr
      ⟨atom, h1, a2, atom, h2, fun h => hne h.symm, name, hname, hname⟩
  have hv2 : a2 ∈ (printAtomDeps cls).vertices :=
    (mem_printAtomDeps_vertices cls hnd a2).mpr ⟨atom, h2, a1, atom, h1, hne, name, hname, hname⟩
  refine ⟨?_, ?_, (literalVariables_sorted _).nodup, fun x => ?_, by decide⟩
  · obtain ⟨i, hi⟩ := List.mem_iff_getElem?.mp hv1
    obtain ⟨j, hj⟩ := List.mem_iff_getElem?.mp hv2
    refine ⟨i, j, ?_, hi, hj⟩
    rintro rfl
    rw [hi] at hj
    exact hne (Option.some.inj hj)
  · have hm : (a1, literalVariables (AstLiteral.atom atom)) ∈ buildArgMap cls :=
      (mem_buildArgMap cls hnd _).mpr ⟨(a1, atom), h1, rfl⟩
    have hm2 : (a2, literalVariables (AstLiteral.atom atom)) ∈ buildArgMap cls :=
      (mem_buildArgMap cls hnd _).mpr ⟨(a2, atom), h2, rfl⟩
    rw [edgesJoining_of_namedEdges _ _ (printAtomDeps_extends cls).1]
    rcases joinLabels_sharingEdges a1 a2 _ _ hne (buildArgMap cls)
      (List.Sorted.nodup (buildArgMap_sorted cls)) hm hm2 with h | h <;>
      rw [h, set_intersection_self]
  · rw [literalVariables, mem_collectChildNodes]
    simp

/-- C13, on the body `p(x,y), q(z), p(x,y)`: the two occurrences of `p(x,y)`
are the vertices 0 and 1, joined by the edges named `x` and `y`. -/
theorem printAtomDeps_identical_atoms_witness :
    (∃ i j : Nat, i ≠ j ∧
      (printAtomDeps (clauseOf [mkAtom "p" [mkVar "x", mkVar "y"], mkAtom "q" [mkVar "z"],
        mkAtom "p" [mkVar "x", mkVar "y"]])).vertices[i]? = some 4096 ∧
      (printAtomDeps (clauseOf [mkAtom "p" [mkVar "x", mkVar "y"], mkAtom "q" [mkVar "z"],
        mkAtom "p" [mkVar "x", mkVar "y"]])).vertices[j]? = some 4112) ∧
    edgesJoining (printAtomDeps (clauseOf [mkAtom "p" [mkVar "x", mkVar "y"],
        mkAtom "q" [mkVar "z"], mkAtom "p" [mkVar "x", mkVar "y"]])) 4096 4112 =
      [['x'], ['y']] := by
  have h := printAtomDeps_identical_atoms
    (clauseOf [mkAtom "p" [mkVar "x", mkVar "y"], mkAtom "q" [mkVar "z"],
      mkAtom "p" [mkVar "x", mkVar "y"]])
    4096 4112 (mkAtom "p" [mkVar "x", mkVar "y"]) (by decide)
    (by simp [clauseOf, AstClause.getAtoms, List.enum, List.enumFrom])
    (by simp [clauseOf, AstClause.getAtoms, List.enum, List.enumFrom]) (by decide) (by decide)
  exact ⟨h.1, h.2.1⟩

/-- C19: for a clause whose nodes have pairwise distinct addresses, the
vertices of the graph built by `printAtomDeps` are pairwise different, and an
address is a vertex exactly when it is an atom of the body that has a
variable in common with another atom of the body.  Every vertex has an
incident edge, and an atom without a variable in common with any other atom,
such as a ground atom, is no vertex. -/
theorem printAtomDeps_vertices (cls : AstClause) (hnd : (cls.getAtoms.map Prod.fst).Nodup) :
    (printAtomDeps cls).vertices.Nodup ∧
    (∀ x, x ∈ (printAtomDeps cls).vertices ↔
      ∃ a, (x, a) ∈ cls.getAtoms ∧ ∃ y b, (y, b) ∈ cls.getAtoms ∧ y ≠ x ∧
        ∃ name, name ∈ literalVariables (AstLiteral.atom a) ∧
          name ∈ literalVariables (AstLiteral.atom b)) ∧
    (∀ i, i < (printAtomDeps cls).num_vertices →
      ∃ e ∈ (printAtomDeps cls).edges, e.1 = i ∨ e.2.1 = i) ∧
    (∀ x a, (x, a) ∈ cls.getAtoms → literalVariables (AstLiteral.atom a) = [] →
      x ∉ (printAtomDeps cls).vertices) ∧
    printAtomDeps (clauseOf [mkAtom "p" [mkVar "x"], mkAtom "g" [mkConst],
        mkAtom "q" [mkVar "x"]]) = ⟨[4096, 4112], [(0, 1, ['x'])]⟩ := by
  refine ⟨(printAtomDeps_extends cls).2.1, mem_printAtomDeps_vertices cls hnd,
    printAtomDeps_incident cls, fun x a ha hempty hx => ?_, by decide⟩
  obtain ⟨a1, ha1, _, _, _, _, name, hn1, _⟩ := (mem_printAtomDeps_vertices cls hnd x).mp hx
  have hp : ((x, a1) : Nat × AstAtom) = (x, a) := by
    have hinj := List.inj_on_of_nodup_map hnd ha1 ha rfl
    exact hinj
  have ha1a : a1 = a := (Prod.mk.inj hp).2
  subst ha1a
  rw [hempty] at hn1
  cases hn1

/-- C19, on the body `p(x), g(c), q(x)` with `c` a constant: the vertices are
the two atoms that share `x`, the ground atom at address 4104 is none. -/
theorem printAtomDeps_vertices_witness :
    (printAtomDeps (clauseOf [mkAtom "p" [mkVar "x"], mkAtom "g" [mkConst],
      mkAtom "q" [mkVar "x"]])).vertices.Nodup ∧
    4104 ∉ (printAtomDeps (clauseOf [mkAtom "p" [mkVar "x"], mkAtom "g" [mkConst],
      mkAtom "q" [mkVar "x"]])).vertices := by
  have h := printAtomDeps_vertices
    (clauseOf [mkAtom "p" [mkVar "x"], mkAtom "g" [mkConst], mkAtom "q" [mkVar "x"]])
    (by decide)
  exact ⟨h.1, h.2.2.2.1 4104 (mkAtom "g" [mkConst])
    (by simp [clauseOf, AstClause.getAtoms, List.enum, List.enumFrom]) (by decide)⟩

/-! ## The emission decisions -/

theorem mem_keys_of_mapFind {κ β : Type} [DecidableEq κ] (k : κ) (v : β) (m : List (κ × β))
    (h : mapFind k m = some v) : (k, v) ∈ m := by
  induction m with
  | nil => simp [mapFind] at h
  | cons e es ih =>
    unfold mapFind at h
    by_cases he : e.1 = k
    · rw [if_pos he, Option.some.injEq] at h
      have : e = (k, v) := Prod.ext he h
      rw [this]
      exact List.mem_cons_self _ _
    · rw [if_neg he] at h
      exact List.mem_cons_of_mem _ (ih h)

theorem mapFind_of_mem {κ β : Type} [DecidableEq κ] (t : κ × β) (m : List (κ × β))
    (h : t ∈ m) : ∃ v, mapFind t.1 m = some v := by
  induction m with
  | nil => cases h
  | cons e es ih =>
    unfold mapFind
    by_cases he : e.1 = t.1
    · exact ⟨e.2, by rw [if_pos he]⟩
    · rw [if_neg he]
      rcases List.mem_cons.mp h with h | h
      · exact absurd (by rw [h]) he
      · exact ih h

/-- The keys of `literalToVertex` are the vertices of the graph. -/
theorem mem_literalToVertex (cls : AstClause) (x : Nat) :
    (∃ t ∈ literalToVertex cls, t.1 = x) ↔ x ∈ (printAtomDeps cls).vertices := by
  have hinv : BuilderInv (pairLoop (buildArgMap cls) (BoostGraph.empty, [])) :=
    (pairLoop_extends (buildArgMap cls) (BoostGraph.empty, []) builderInv_empty).1
  unfold literalToVertex printAtomDeps
  constructor
  · rintro ⟨t, ht, rfl⟩
    obtain ⟨v, hv⟩ := mapFind_of_mem t _ ht
    exact List.getElem?_mem ((hinv.1 t.1 v).mp hv)
  · intro hx
    obtain ⟨i, hi⟩ := List.mem_iff_getElem?.mp hx
    exact ⟨(x, i), mem_keys_of_mapFind x i _ ((hinv.1 x i).mpr hi), rfl⟩

theorem hasFuncRel_iff (funcRels : List (CppString × FunctionalRelationDesc))
    (cls : AstClause) :
    hasFuncRel funcRels cls = true ↔
      ∃ x ∈ (printAtomDeps cls).vertices, ∃ a,
        cls.literalAt x = some (AstLiteral.atom a) ∧ multimapCount funcRels a.name ≠ 0 := by
  unfold hasFuncRel
  rw [List.any_eq_true]
  constructor
  · rintro ⟨t, ht, hcond⟩
    have hx := (mem_literalToVertex cls t.1).mp ⟨t, ht, rfl⟩
    cases hl : cls.literalAt t.1 with
    | none => simp [hl] at hcond
    | some lit =>
      cases lit with
      | atom a =>
        simp only [hl, decide_eq_true_eq] at hcond
        exact ⟨t.1, hx, a, hl, hcond⟩
      | binaryConstraint lhs rhs => simp [hl] at hcond
  · rintro ⟨x, hx, a, hl, hcount⟩
    obtain ⟨t, ht, rfl⟩ := (mem_literalToVertex cls x).mpr hx
    exact ⟨t, ht, by simp only [hl, decide_eq_true_eq]; exact hcount⟩

theorem mem_getAtoms_of_literalAt (cls : AstClause) (x : Nat) (a : AstAtom)
    (h : cls.literalAt x = some (AstLiteral.atom a)) : (x, a) ∈ cls.getAtoms := by
  unfold AstClause.literalAt at h
  obtain ⟨l, hl, hl2⟩ := Option.map_eq_some'.mp h
  have hmem := List.mem_of_find?_eq_some hl
  have hkey := List.find?_some hl
  simp only [decide_eq_true_eq] at hkey
  unfold AstClause.getAtoms
  rw [List.mem_filterMap]
  refine ⟨l, hmem, ?_⟩
  rw [hl2, hkey]

/-- C14: the condition under which `printFuncRelDeps` writes its graph out,
more than two vertices, holds exactly when the graph has more than two
vertices and one of its vertices comes from an atom whose relation name
has an entry in the descriptor mapping, every vertex of the graph coming
from such an atom; and the graph is written out exactly when moreover the
diagnostics mode is on.  So a graph without such a vertex is never written
out. -/
theorem funcRelDepsCondition_iff (funcRels : List (CppString × FunctionalRelationDesc))
    (cls : AstClause) (g : Graph) (h : printFuncRelDeps funcRels cls = some g) :
    (funcRelDepsCondition g = true ↔
      g.num_vertices > 2 ∧ ∃ x ∈ g.vertices, ∃ a ∈ cls.getAtoms,
        multimapCount funcRels a.2.name ≠ 0 ∧
          ∃ d ∈ equal_range funcRels a.2.name, DescVertex a.2 d x) ∧
    (∀ debug, printFuncRelDepsWrites debug funcRels cls = some true ↔
      debug = true ∧ g.num_vertices > 2 ∧ ∃ x ∈ g.vertices, ∃ a ∈ cls.getAtoms,
        multimapCount funcRels a.2.name ≠ 0 ∧
          ∃ d ∈ equal_range funcRels a.2.name, DescVertex a.2 d x) ∧
    ((¬ ∃ x ∈ g.vertices, ∃ a ∈ cls.getAtoms, multimapCount funcRels a.2.name ≠ 0 ∧
        ∃ d ∈ equal_range funcRels a.2.name, DescVertex a.2 d x) →
      ∀ debug, printFuncRelDepsWrites debug funcRels cls = some false) := by
  obtain ⟨_, _, hverts, _⟩ := printFuncRelDeps_extends funcRels cls g h
  have horigin : ∀ x ∈ g.vertices, ∃ a ∈ cls.getAtoms,
      multimapCount funcRels a.2.name ≠ 0 ∧
        ∃ d ∈ equal_range funcRels a.2.name, DescVertex a.2 d x := by
    intro x hx
    obtain ⟨a, ha, d, hd, hdv⟩ := (hverts x).mp hx
    refine ⟨a, ha, ?_, d, hd, hdv⟩
    unfold multimapCount
    exact fun h0 => by rw [List.length_eq_zero] at h0; rw [h0] at hd; cases hd
  have hcond : funcRelDepsCondition g = true ↔
      g.num_vertices > 2 ∧ ∃ x ∈ g.vertices, ∃ a ∈ cls.getAtoms,
        multimapCount funcRels a.2.name ≠ 0 ∧
          ∃ d ∈ equal_range funcRels a.2.name, DescVertex a.2 d x := by
    unfold funcRelDepsCondition
    rw [decide_eq_true_eq]
    constructor
    · intro hgt
      refine ⟨hgt, ?_⟩
      have hpos : 0 < g.vertices.length := by
        unfold BoostGraph.num_vertices at hgt; omega
      exact ⟨g.vertices[0], List.getElem_mem _, horigin _ (List.getElem_mem _)⟩
    · exact fun hc => hc.1
  refine ⟨hcond, fun debug => ?_, fun hno debug => ?_⟩
  · unfold printFuncRelDepsWrites
    rw [h, Option.map_some', Option.some.injEq, Bool.and_eq_true, hcond]
  · unfold printFuncRelDepsWrites
    rw [h, Option.map_some', Option.some.injEq, Bool.and_eq_false_iff]
    right
    cases hc : funcRelDepsCondition g with
    | false => rfl
    | true => exact absurd (hcond.mp hc).2 hno

/-- C14, on the body `p(x,y), q(y,z), r(z,x)` with `p` and `q` registered with
`({0}, 1)`: the graph has the three vertices `y`, `x`, `z`, and it is written
out in the diagnostics mode. -/
theorem funcRelDepsCondition_iff_witness :
    printFuncRelDeps [(['p'], ⟨[0], 1⟩), (['q'], ⟨[0], 1⟩)]
        (clauseOf [mkAtom "p" [mkVar "x", mkVar "y"], mkAtom "q" [mkVar "y", mkVar "z"],
          mkAtom "r" [mkVar "z", mkVar "x"]]) =
      some ⟨[['y'], ['x'], ['z']], [(1, 0, ['p']), (0, 2, ['q'])]⟩ ∧
    printFuncRelDepsWrites true [(['p'], ⟨[0], 1⟩), (['q'], ⟨[0], 1⟩)]
        (clauseOf [mkAtom "p" [mkVar "x", mkVar "y"], mkAtom "q" [mkVar "y", mkVar "z"],
          mkAtom "r" [mkVar "z", mkVar "x"]]) = some true ∧
    ∃ x ∈ [['y'], ['x'], ['z']], ∃ a ∈ (clauseOf [mkAtom "p" [mkVar "x", mkVar "y"],
        mkAtom "q" [mkVar "y", mkVar "z"], mkAtom "r" [mkVar "z", mkVar "x"]]).getAtoms,
      multimapCount [(['p'], (⟨[0], 1⟩ : FunctionalRelationDesc)), (['q'], ⟨[0], 1⟩)]
          a.2.name ≠ 0 ∧
        ∃ d ∈ equal_range [(['p'], (⟨[0], 1⟩ : FunctionalRelationDesc)), (['q'], ⟨[0], 1⟩)]
          a.2.name, DescVertex a.2 d x := by
  have h := funcRelDepsCondition_iff [(['p'], ⟨[0], 1⟩), (['q'], ⟨[0], 1⟩)]
    (clauseOf [mkAtom "p" [mkVar "x", mkVar "y"], mkAtom "q" [mkVar "y", mkVar "z"],
      mkAtom "r" [mkVar "z", mkVar "x"]])
    ⟨[['y'], ['x'], ['z']], [(1, 0, ['p']), (0, 2, ['q'])]⟩ (by decide)
  exact ⟨by decide, by decide, (h.1.mp (by decide)).2⟩

/-- C15, refuted as stated: for the body `p(x,y), q(y,z), r(z,x)` and an empty
descriptor mapping the sharing graph has three vertices, and it is not
written out, the diagnostics mode being on. -/
theorem printAtomDepsWrites_counterexample :
    (printAtomDeps (clauseOf [mkAtom "p" [mkVar "x", mkVar "y"],
      mkAtom "q" [mkVar "y", mkVar "z"], mkAtom "r" [mkVar "z", mkVar "x"]])).num_vertices = 3 ∧
    printAtomDepsWrites true [] (clauseOf [mkAtom "p" [mkVar "x", mkVar "y"],
      mkAtom "q" [mkVar "y", mkVar "z"], mkAtom "r" [mkVar "z", mkVar "x"]]) = false := by
  decide

/-- C15, amended: `printAtomDeps` writes its graph out exactly when the
diagnostics mode is on, the graph has more than two vertices and one of its
vertices is an atom whose relation name has an entry in the descriptor
mapping (the flag `hasFuncRel`); a graph of three or more vertices is not
written out when no atom of the clause has such a relation name. -/
theorem printAtomDepsWrites_iff (debug : Bool)
    (funcRels : List (CppString × FunctionalRelationDesc)) (cls : AstClause) :
    (printAtomDepsWrites debug funcRels cls = true ↔
      debug = true ∧ (printAtomDeps cls).num_vertices > 2 ∧
        ∃ x ∈ (printAtomDeps cls).vertices, ∃ a,
          cls.literalAt x = some (AstLiteral.atom a) ∧ multimapCount funcRels a.name ≠ 0) ∧
    ((∀ a ∈ cls.getAtoms, multimapCount funcRels a.2.name = 0) →
      printAtomDepsWrites debug funcRels cls = false) ∧
    printAtomDepsWrites true [(['p'], ⟨[0], 1⟩)] (clauseOf [mkAtom "p" [mkVar "x", mkVar "y"],
      mkAtom "q" [mkVar "y", mkVar "z"], mkAtom "r" [mkVar "z", mkVar "x"]]) = true := by
  have hiff : printAtomDepsWrites debug funcRels cls = true ↔
      debug = true ∧ (printAtomDeps cls).num_vertices > 2 ∧
        ∃ x ∈ (printAtomDeps cls).vertices, ∃ a,
          cls.literalAt x = some (AstLiteral.atom a) ∧ multimapCount funcRels a.name ≠ 0 := by
    unfold printAtomDepsWrites
    rw [Bool.and_eq_true, Bool.and_eq_true, decide_eq_true_eq, hasFuncRel_iff]
  refine ⟨hiff, fun hnone => ?_, by decide⟩
  cases hw : printAtomDepsWrites debug funcRels cls with
  | false => rfl
  | true =>
    obtain ⟨_, _, x, _, a, hl, hcount⟩ := hiff.mp hw
    exact absurd (hnone (x, a) (mem_getAtoms_of_literalAt cls x a hl)) hcount

/-- C15, amended, on the body `p(x,y), q(y,z), r(z,x)` with a mapping that
registers only a relation `f`: the graph is not written out. -/
theorem printAtomDepsWrites_iff_witness :
    printAtomDepsWrites true [(['f'], ⟨[0], 1⟩)] (clauseOf [mkAtom "p" [mkVar "x", mkVar "y"],
      mkAtom "q" [mkVar "y", mkVar "z"], mkAtom "r" [mkVar "z", mkVar "x"]]) = false :=
  (printAtomDepsWrites_iff true [(['f'], ⟨[0], 1⟩)] (clauseOf [mkAtom "p" [mkVar "x", mkVar "y"],
    mkAtom "q" [mkVar "y", mkVar "z"], mkAtom "r" [mkVar "z", mkVar "x"]])).2.1
    (by decide)

/-- C16: neither function writes out a graph with at most two vertices,
whatever the diagnostics mode, the descriptor mapping and the clause: not
`printAtomDeps`, and not `printFuncRelDeps`, which writes a graph out only
when it has built one with more than two vertices. -/
theorem small_graph_not_written (debug : Bool)
    (funcRels : List (CppString × FunctionalRelationDesc)) (cls : AstClause) :
    ((printAtomDeps cls).num_vertices ≤ 2 → printAtomDepsWrites debug funcRels cls = false) ∧
    (∀ g, printFuncRelDeps funcRels cls = some g → g.num_vertices ≤ 2 →
      printFuncRelDepsWrites debug funcRels cls = some false) ∧
    (printFuncRelDepsWrites debug funcRels cls = some true →
      ∃ g, printFuncRelDeps funcRels cls = some g ∧ g.num_vertices > 2) := by
  refine ⟨fun hle => ?_, fun g hg hle => ?_, fun hw => ?_⟩
  · unfold printAtomDepsWrites
    have : decide ((printAtomDeps cls).num_vertices > 2) = false := by
      rw [decide_eq_false_iff_not]; omega
    rw [this, Bool.false_and, Bool.and_false]
  · unfold printFuncRelDepsWrites funcRelDepsCondition
    have : decide (g.num_vertices > 2) = false := by
      rw [decide_eq_false_iff_not]; omega
    rw [hg, Option.map_some', this, Bool.and_false]
  · unfold printFuncRelDepsWrites at hw
    cases hg : printFuncRelDeps funcRels cls with
    | none => rw [hg] at hw; cases hw
    | some g =>
      rw [hg, Option.map_some', Option.some.injEq, Bool.and_eq_true] at hw
      refine ⟨g, rfl, ?_⟩
      unfold funcRelDepsCondition at hw
      exact of_decide_eq_true hw.2

/-- C16, on the body `p(x,y), q(y,z)` with `p` registered with `({0}, 1)`: the
sharing graph and the dependency graph have two vertices each, and neither is
written out in the diagnostics mode. -/
theorem small_graph_not_written_witness :
    printAtomDepsWrites true [(['p'], ⟨[0], 1⟩)]
      (clauseOf [mkAtom "p" [mkVar "x", mkVar "y"], mkAtom "q" [mkVar "y", mkVar "z"]]) = false ∧
    printFuncRelDepsWrites true [(['p'], ⟨[0], 1⟩)]
      (clauseOf [mkAtom "p" [mkVar "x", mkVar "y"], mkAtom "q" [mkVar "y", mkVar "z"]]) =
        some false :=
  ⟨(small_graph_not_written true [(['p'], ⟨[0], 1⟩)]
      (clauseOf [mkAtom "p" [mkVar "x", mkVar "y"], mkAtom "q" [mkVar "y", mkVar "z"]])).1
      (by decide),
    (small_graph_not_written true [(['p'], ⟨[0], 1⟩)]
      (clauseOf [mkAtom "p" [mkVar "x", mkVar "y"], mkAtom "q" [mkVar "y", mkVar "z"]])).2.1
      ⟨[['y'], ['x']], [(1, 0, ['p'])]⟩ (by decide) (by decide)⟩

/-! ## Argument indexing -/

theorem getArgument_eq_none_iff (atom : AstAtom) (idx : Nat) :
    atom.getArgument idx = none ↔ ¬ idx < atom.arguments.length := by
  unfold AstAtom.getArgument
  rw [List.getElem?_eq_none_iff]
  omega

theorem sourceLoop_some_iff (atom : AstAtom) (dstV : Nat) (srcs : List Nat) :
    ∀ st : Builder CppString, (∃ st1, sourceLoop atom dstV srcs st = some st1) ↔
      ∀ s ∈ srcs, s < atom.arguments.length := by
  induction srcs with
  | nil => intro st; simp [sourceLoop]
  | cons s rest ih =>
    intro st
    simp only [sourceLoop, List.mem_cons, forall_eq_or_imp]
    cases harg : atom.getArgument s with
    | none =>
      have := (getArgument_eq_none_iff atom s).mp harg
      simp [this]
    | some arg =>
      have hs : s < atom.arguments.length := by
        by_contra hc
        rw [(getArgument_eq_none_iff atom s).mpr hc] at harg
        cases harg
      cases arg with
      | var name => simp only [hs, true_and]; exact ih _
      | compound cs => simp only [hs, true_and]; exact ih _

theorem descLoop_some_iff (atom : AstAtom) (descs : List FunctionalRelationDesc) :
    ∀ st : Builder CppString, (∃ st1, descLoop atom descs st = some st1) ↔
      ∀ d ∈ descs, d.second < atom.arguments.length ∧
        (∀ t, atom.variableAt d.second = some t → ∀ s ∈ d.first, s < atom.arguments.length) := by
  induction descs with
  | nil => intro st; simp [descLoop]
  | cons d rest ih =>
    intro st
    simp only [descLoop, List.mem_cons, forall_eq_or_imp]
    cases harg : atom.getArgument d.second with
    | none =>
      have := (getArgument_eq_none_iff atom d.second).mp harg
      simp [this]
    | some arg =>
      have hs : d.second < atom.arguments.length := by
        by_contra hc
        rw [(getArgument_eq_none_iff atom d.second).mpr hc] at harg
        cases harg
      cases arg with
      | var name =>
        simp only [hs, true_and, variableAt_of_var atom _ name harg, Option.some.injEq,
          forall_eq']
        cases hsrc : sourceLoop atom (getVertex name st).1 d.first (getVertex name st).2 with
        | none =>
          have hno : ¬ ∀ s ∈ d.first, s < atom.arguments.length := by
            intro hall
            obtain ⟨st1, h1⟩ := (sourceLoop_some_iff atom _ d.first _).mpr hall
            rw [hsrc] at h1
            cases h1
          simp [hno]
        | some st2 =>
          have hall := (sourceLoop_some_iff atom _ d.first _).mp ⟨st2, hsrc⟩
          rw [ih st2]
          exact ⟨fun h => ⟨hall, h⟩, fun h => h.2⟩
      | compound cs =>
        simp only [hs, true_and, variableAt_of_compound atom _ cs harg]
        rw [ih st]
        simp

theorem atomLoop_some_iff (funcRels : List (CppString × FunctionalRelationDesc))
    (atoms : List AstAtom) :
    ∀ st : Builder CppString, (∃ st1, atomLoop funcRels atoms st = some st1) ↔
      ∀ a ∈ atoms, ∀ d ∈ equal_range funcRels a.name, d.second < a.arguments.length ∧
        (∀ t, a.variableAt d.second = some t → ∀ s ∈ d.first, s < a.arguments.length) := by
  induction atoms with
  | nil => intro st; simp [atomLoop]
  | cons a rest ih =>
    intro st
    simp only [atomLoop, List.mem_cons, forall_eq_or_imp]
    by_cases hempty : (equal_range funcRels a.name).isEmpty = true
    · rw [if_pos hempty, ih st, List.isEmpty_iff.mp hempty]
      simp
    · rw [if_neg hempty]
      cases hd : descLoop a (equal_range funcRels a.name) st with
      | none =>
        have hno : ¬ ∀ d ∈ equal_range funcRels a.name, d.second < a.arguments.length ∧
            (∀ t, a.variableAt d.second = some t →
              ∀ s ∈ d.first, s < a.arguments.length) := by
          intro hall
          obtain ⟨st1, h1⟩ := (descLoop_some_iff a (equal_range funcRels a.name) st).mpr hall
          rw [hd] at h1
          cases h1
        constructor
        · rintro ⟨st1, h1⟩
          cases h1
        · exact fun h => absurd h.1 hno
      | some st2 =>
        have hall := (descLoop_some_iff a _ st).mp ⟨st2, hd⟩
        simp only
        rw [ih st2]
        exact ⟨fun h => ⟨hall, h⟩, fun h => h.2⟩

/-- The builder that leaves the result of an out-of-range `getArgument`
undefined yields a graph exactly when every position that it indexes is below
the arity of the atom. -/
theorem printFuncRelDeps_some_iff (funcRels : List (CppString × FunctionalRelationDesc))
    (cls : AstClause) :
    ((∃ g, printFuncRelDeps funcRels cls = some g) ↔ IndexedPositionsInRange funcRels cls) ∧
    (PositionsInRange funcRels cls → ∃ g, printFuncRelDeps funcRels cls = some g) := by
  refine ⟨?_, printFuncRelDeps_isSome funcRels cls⟩
  have h := atomLoop_some_iff funcRels (cls.getAtoms.map Prod.snd) (BoostGraph.empty, [])
  unfold printFuncRelDeps IndexedPositionsInRange
  constructor
  · rintro ⟨g, hg⟩
    obtain ⟨st, hst, _⟩ := Option.map_eq_some'.mp hg
    intro a ha
    exact h.mp ⟨st, hst⟩ a.2 (List.mem_map_of_mem _ ha)
  · intro hall
    obtain ⟨st, hst⟩ := h.mpr (by
      intro a ha
      obtain ⟨p, hp, rfl⟩ := List.mem_map.mp ha
      exact hall p hp)
    exact ⟨st.1, by rw [hst]; rfl⟩

/-! ## Labels -/

theorem replaceAllLoop_question (s : List Char) :
    replaceAllLoop ['?'] ['_'] 0 s = s.map (fun c => if c = '?' then '_' else c) := by
  induction s with
  | nil => rfl
  | cons c cs ih =>
    by_cases hc : c = '?'
    · subst hc
      simp [replaceAllLoop, ih]
    · have hc2 : ¬ ('?' = c) := fun h => hc h.symm
      simp [replaceAllLoop, ih, hc, hc2]

theorem sanitize_eq_map (s : CppString) :
    sanitize s = s.map (fun c => if c = '?' then '_' else c) :=
  replaceAllLoop_question s

/-- C18: `sanitize` returns a string of the same length as its argument that
holds no `?`, holds `_` at every position where the argument holds `?`, and
the character of the argument at every other position; so it is idempotent,
and it is the identity on strings without `?`. -/
theorem sanitize_spec (s : CppString) :
    (sanitize s).length = s.length ∧
    '?' ∉ sanitize s ∧
    (∀ i : Nat, s[i]? = some '?' → (sanitize s)[i]? = some '_') ∧
    (∀ (i : Nat) (c : Char), s[i]? = some c → c ≠ '?' → (sanitize s)[i]? = some c) ∧
    sanitize (sanitize s) = sanitize s ∧
    ('?' ∉ s → sanitize s = s) ∧
    sanitize "?x?y".toList = "_x_y".toList := by
  have hno : '?' ∉ sanitize s := by
    rw [sanitize_eq_map, List.mem_map]
    rintro ⟨c, _, hc⟩
    by_cases h : c = '?'
    · rw [if_pos h] at hc
      exact absurd hc (by decide)
    · rw [if_neg h] at hc
      exact h hc
  have hid : ∀ t : CppString, '?' ∉ t → sanitize t = t := by
    intro t ht
    rw [sanitize_eq_map]
    conv_rhs => rw [← List.map_id t]
    apply List.map_congr_left
    intro c hc
    have : c ≠ '?' := fun h => ht (h ▸ hc)
    simp [this]
  refine ⟨by rw [sanitize_eq_map, List.length_map], hno, fun i hi => ?_, fun i c hi hc => ?_,
    hid _ hno, hid s, by decide⟩
  · rw [sanitize_eq_map, List.getElem?_map, hi]
    rfl
  · rw [sanitize_eq_map, List.getElem?_map, hi]
    simp [hc]

/-- C18, on the label `?x`: the first character becomes `_`, the second one
stays. -/
theorem sanitize_spec_witness :
    (sanitize "?x".toList)[0]? = some '_' ∧ (sanitize "?x".toList)[1]? = some 'x' ∧
    sanitize "xy".toList = "xy".toList :=
  ⟨(sanitize_spec "?x".toList).2.2.1 0 (by decide),
    (sanitize_spec "?x".toList).2.2.2.1 1 'x' (by decide) (by decide),
    (sanitize_spec "xy".toList).2.2.2.2.2.1 (by decide)⟩

/-! ## Target and source positions -/

theorem exists_last_split (a : Char) (s : CppString) (h : a ∈ s) :
    ∃ pre post, s = pre ++ a :: post ∧ a ∉ post := by
  induction s with
  | nil => cases h
  | cons c cs ih =>
    by_cases hcs : a ∈ cs
    · obtain ⟨pre, post, hs, hp⟩ := ih hcs
      exact ⟨c :: pre, post, by rw [hs]; rfl, hp⟩
    · rcases List.mem_cons.mp h with rfl | h
      · exact ⟨[], cs, rfl, hcs⟩
      · exact absurd h hcs

/-- Two different position characters of a string are preceded by different
numbers of position characters. -/
theorem positionCount_split_ne (a b : Char) (ha : isPositionChar a = true)
    (hb : isPositionChar b = true) (hab : a ≠ b) (p1 q1 p2 q2 : CppString)
    (h : p1 ++ a :: q1 = p2 ++ b :: q2) : positionCount p1 ≠ positionCount p2 := by
  rcases List.append_eq_append_iff.mp h with ⟨m, hp, hq⟩ | ⟨m, hp, hq⟩
  · cases m with
    | nil =>
      simp only [List.nil_append, List.cons.injEq] at hq
      exact absurd hq.1 hab
    | cons x m =>
      simp only [List.cons_append, List.cons.injEq] at hq
      obtain ⟨rfl, _⟩ := hq
      rw [hp, positionCount_append, positionCount_cons, ha]
      simp only [if_true]
      omega
  · cases m with
    | nil =>
      simp only [List.nil_append, List.cons.injEq] at hq
      exact absurd hq.1.symm hab
    | cons x m =>
      simp only [List.cons_append, List.cons.injEq] at hq
      obtain ⟨rfl, _⟩ := hq
      rw [hp, positionCount_append, positionCount_cons, hb]
      simp only [if_true]
      omega

/-- C20, refuted as stated: for the pattern made of one `S`, then 2^32 - 1
characters `X`, then one `T`, the `T` is preceded by 2^32 position characters,
the counter has wrapped around, and the descriptor built has the target
position 0, which is also its source position. -/
theorem scanPattern_target_wrap_counterexample :
    unsignedModulus = 2 ^ 32 ∧
    'T' ∈ 'S' :: (List.replicate (unsignedModulus - 1) 'X' ++ ['T']) ∧
    scanPattern ('S' :: (List.replicate (unsignedModulus - 1) 'X' ++ ['T'])) = ⟨[0], 0⟩ ∧
    (scanPattern ('S' :: (List.replicate (unsignedModulus - 1) 'X' ++ ['T']))).second ∈
      (scanPattern ('S' :: (List.replicate (unsignedModulus - 1) 'X' ++ ['T']))).first := by
  have hpos : 0 < unsignedModulus - 1 := by decide
  have hmod : (1 % unsignedModulus + (unsignedModulus - 1)) % unsignedModulus = 0 := by decide
  have hscan := scanPattern_S_replicate_X_T (unsignedModulus - 1) hpos
  rw [hmod] at hscan
  refine ⟨rfl, ?_, hscan, ?_⟩
  · exact List.mem_cons_of_mem _ (List.mem_append_right _ (List.mem_singleton_self _))
  · rw [hscan]
    exact List.mem_singleton_self _

/-- C20, amended: for every pattern string that holds a `T` and at most 2^32
characters from S, T, X, the target position of the descriptor built by the
pattern scan is none of its source positions; so, within that length, a
descriptor whose target position is also a source position comes from a
pattern without `T`, and its target position is then the default 0, as for the
pattern `S`, which gives the sources `{0}` and the target 0. -/
theorem scanPattern_target_not_source (s : CppString) (hb : positionCount s ≤ 2 ^ 32) :
    ('T' ∈ s → (scanPattern s).second ∉ (scanPattern s).first) ∧
    ((scanPattern s).second ∈ (scanPattern s).first →
      'T' ∉ s ∧ (scanPattern s).second = 0) ∧
    scanPattern "S".toList = ⟨[0], 0⟩ := by
  have hM : unsignedModulus = 2 ^ 32 := rfl
  have hmain : 'T' ∈ s → (scanPattern s).second ∉ (scanPattern s).first := by
    intro hT hmem
    obtain ⟨pre, post, hs, hpost⟩ := exists_last_split 'T' s hT
    have h2 := (scanPattern_mod s).2.2 pre post hs hpost
    obtain ⟨pre1, post1, hs1, hk⟩ := ((scanPattern_mod s).1 _).mp hmem
    have hlt : positionCount pre < unsignedModulus :=
      lt_of_lt_of_le (positionCount_prefix_lt 'T' (by decide) s pre post hs) (hM ▸ hb)
    have hlt1 : positionCount pre1 < unsignedModulus :=
      lt_of_lt_of_le (positionCount_prefix_lt 'S' (by decide) s pre1 post1 hs1) (hM ▸ hb)
    rw [h2, Nat.mod_eq_of_lt hlt, Nat.mod_eq_of_lt hlt1] at hk
    exact positionCount_split_ne 'T' 'S' (by decide) (by decide) (by decide)
      pre post pre1 post1 (hs.symm.trans hs1) hk.symm
  refine ⟨hmain, fun hmem => ?_, by decide⟩
  have hT : 'T' ∉ s := fun hT => hmain hT hmem
  exact ⟨hT, scanPattern_no_T s hT⟩

/-- C20, amended, on the pattern `SXTS`: the target position 2 is none of the
source positions 0 and 3. -/
theorem scanPattern_target_not_source_witness :
    positionCount "SXTS".toList ≤ 2 ^ 32 ∧
    scanPattern "SXTS".toList = ⟨[0, 3], 2⟩ ∧
    (scanPattern "SXTS".toList).second ∉ (scanPattern "SXTS".toList).first :=
  ⟨by decide, by decide,
    (scanPattern_target_not_source "SXTS".toList (by decide)).1 (by decide)⟩

/-! ## The dependency graph on any descriptor positions -/

end ReorderFuncLiterals
